import Mathlib

/-!
Verification development for the chunkdrive storage engine.

The Rust sources are shallowly embedded as executable Lean definitions.
Backend I/O is modelled by an explicit `Store` state threaded through the
operations; machine integers are `Nat`; fallible Rust code returns
`Except Err`.  Asynchronous streams are modelled as the list of chunks they
emit.  Randomness (bucket choice via `rand::thread_rng`) is modelled by a
stream of choice values carried in the `Store`; backend faults are modelled
by a stream of fault flags consumed by every backend operation.
Recursion through the store (a `StoredBlock` fetches another block from a
bucket) is not structurally decreasing, so block operations take an explicit
fuel argument; running out of fuel yields the distinguished error
`Err.fuel`, which no modelled Rust error equals.
-/

namespace Chunkdrive

/-- Bucket names are the UTF-8 bytes of the Rust `String`. -/
abbrev BucketName := List Nat

/-- `pub type Descriptor = Vec<u8>;` from src/global.rs. -/
abbrev Descriptor := List Nat

/-- Errors.  Rust block/stored operations fail with a `String`
(`Err.e`); a Rust panic is `Err.panic`; `Err.fuel` is the artifact of the
fuel-based embedding and corresponds to no Rust behaviour. -/
inductive Err where
  | e (msg : String)
  | panic (msg : String)
  | fuel
deriving DecidableEq, Repr

/-- `Stored` from src/stored.rs: a `(bucket, descriptor)` handle. -/
structure Stored where
  bucket : BucketName
  descriptor : Descriptor
deriving DecidableEq, Repr

/-- `Size` from the inode metadata (src/inodes/metadata.rs is not under
src/).  Modelled from the spec: size is either a byte count or an entry
count. -/
inductive Size where
  | Bytes (n : Nat)
  | Entries (n : Nat)
deriving DecidableEq, Repr

/-- `Metadata` (src/inodes/metadata.rs is not under src/).  Modelled from
the spec: `{size, created, modified}`, updated locally on mutation. -/
structure Metadata where
  size : Size
  created : Nat
  modified : Nat
deriving DecidableEq, Repr

/-- `BlockType` from src/blocks/block.rs, with the fields of
`DirectBlock` (stored handle plus inline `[start, end)` range),
`IndirectBlock` (ordered child list) and `StoredBlock` (a stored handle
whose blob deserializes to another block) inlined. -/
inductive BlockType where
  | Direct (stored : Stored) (start fin : Nat)
  | Indirect (blocks : List BlockType)
  | Stored (stored : Stored)

/-- `InodeType` from src/inodes/inode.rs: a `File` owns an indirect block
tree plus metadata, a `Directory` owns a `name -> Stored` map plus
metadata. -/
inductive InodeType where
  | File (data : List BlockType) (metadata : Metadata)
  | Directory (children : List (String × Stored)) (metadata : Metadata)

/-- A blob held by a backend.  Serialization in the Rust code (raw bytes
for `DirectBlock`, MessagePack for `Stored::create/put/get`) is injective,
so it is modelled by the constructors of this sum: a `Blob.block`/`
Blob.inode` is "the serialized form of" its payload and deserializing with
the wrong type is a codec error. -/
inductive Blob where
  | bytes (data : List Nat)
  | block (b : BlockType)
  | inode (i : InodeType)

/-- The registry from src/global.rs: the bucket map (each bucket reduced
to its effective `max_size`) and the `direct_block_count` fanout. -/
structure Global where
  buckets : List (BucketName × Nat)
  direct_block_count : Nat
deriving DecidableEq, Repr

/-- Blob-store key: `(bucket name, descriptor)`. -/
abbrev Key := BucketName × Descriptor

/-- The modelled world state: the blobs held by all backends, a fresh
descriptor counter, the stream of injected backend faults (`true` = the
next backend operation fails; an empty stream means a fault-free backend),
the stream of random choices used by bucket placement, the deletion
request log, and a clock for metadata timestamps. -/
structure Store where
  blobs : List (Key × Blob)
  nextDesc : Nat
  faults : List Bool
  rand : List Nat
  deleted : List Key
  time : Nat

/-- Association-list lookup for the blob store. -/
def findBlob : List (Key × Blob) → Key → Option Blob
  | [], _ => none
  | (k', v) :: rest, k => if k' = k then some v else findBlob rest k

/-- Association-list insert-or-replace for the blob store. -/
def setBlob : List (Key × Blob) → Key → Blob → List (Key × Blob)
  | [], k, v => [(k, v)]
  | (k', v') :: rest, k, v =>
    if k' = k then (k, v) :: rest else (k', v') :: setBlob rest k v

/-- Association-list removal for the blob store. -/
def removeBlob : List (Key × Blob) → Key → List (Key × Blob)
  | [], _ => []
  | (k', v') :: rest, k =>
    if k' = k then removeBlob rest k else (k', v') :: removeBlob rest k

/-- Pop the next backend fault flag (absent flags default to `false`,
i.e. success). -/
def takeFault (st : Store) : Bool × Store :=
  (st.faults.head?.getD false, { st with faults := st.faults.tail })

/-- Numeric view of a descriptor (descriptors issued by the modelled
backend are singletons `[n]` drawn from the fresh counter). -/
def dnum (d : Descriptor) : Nat := d.headD 0

/-- The result of a stateful operation: an `Except` outcome plus the
state after the operation (Rust mutations persist even when an error is
returned). -/
abbrev MRes (α : Type) := Except Err α × Store

/-- Sequencing of stateful results. -/
def bindE {α β : Type} (x : MRes α) (k : α → Store → MRes β) : MRes β :=
  match x with
  | (.ok a, st) => k a st
  | (.error err, st) => (.error err, st)

theorem bindE_ok {α β : Type} (a : α) (st : Store) (k : α → Store → MRes β) :
    bindE (.ok a, st) k = k a st := rfl

theorem bindE_error {α β : Type} (err : Err) (st : Store) (k : α → Store → MRes β) :
    bindE (.error err, st) k = (.error err, st) := rfl

/-- `Global::get_bucket` from src/global.rs, reduced to the effective
`max_size` of the named bucket. -/
def getBucket (g : Global) : BucketName → Option Nat :=
  fun name => lookupBucket g.buckets name
where
  lookupBucket : List (BucketName × Nat) → BucketName → Option Nat
    | [], _ => none
    | (n, m) :: rest, name => if n = name then some m else lookupBucket rest name

/-- The candidate list inside `Global::next_bucket` from src/global.rs:
buckets whose `max_size` is at least the requested size and whose name is
not excluded. -/
def candidates (g : Global) (size : Nat) (exclude : List BucketName) :
    List (BucketName × Nat) :=
  (g.buckets.filter (fun p => size ≤ p.2)).filter (fun p => ¬ exclude.contains p.1)

/-- `Global::next_bucket` from src/global.rs.  `IteratorRandom::choose`
picks a uniformly random element of the candidate iterator (`none` iff it
is empty); the random draw is the explicit argument `r`. -/
def next_bucket (g : Global) (size : Nat) (exclude : List BucketName) (r : Nat) :
    Option BucketName :=
  let cs := candidates g size exclude
  (cs.get? (r % cs.length)).map (fun p => p.1)

/-- Stateful wrapper of `next_bucket` drawing the random value from the
store's random stream. -/
def nextBucketM (g : Global) (size : Nat) (exclude : List BucketName) (st : Store) :
    Option BucketName × Store :=
  (next_bucket g size exclude (st.rand.head?.getD 0), { st with rand := st.rand.tail })

/-- Source `create` (§4.1 collaborator contract): reserve a fresh
descriptor.  The modelled backend issues the singleton `[counter]`. -/
def bucketCreate (_name : BucketName) (st : Store) : MRes Descriptor :=
  let (f, st1) := takeFault st
  if f then (.error (.e "injected fault"), st1)
  else (.ok [st1.nextDesc], { st1 with nextDesc := st1.nextDesc + 1 })

/-- Source `put` (§4.1): overwrite the blob at a descriptor. -/
def bucketPut (name : BucketName) (d : Descriptor) (v : Blob) (st : Store) : MRes Unit :=
  let (f, st1) := takeFault st
  if f then (.error (.e "injected fault"), st1)
  else (.ok (), { st1 with blobs := setBlob st1.blobs (name, d) v })

/-- Source `get` (§4.1): fetch the blob at a descriptor. -/
def bucketGet (name : BucketName) (d : Descriptor) (st : Store) : MRes Blob :=
  let (f, st1) := takeFault st
  if f then (.error (.e "injected fault"), st1)
  else
    match findBlob st1.blobs (name, d) with
    | some v => (.ok v, st1)
    | none => (.error (.e "Blob not found"), st1)

/-- Source `delete` (§4.1): remove the blob at a descriptor; every request
is logged.  Deleting a nonexistent descriptor succeeds (the contract
allows either). -/
def bucketDelete (name : BucketName) (d : Descriptor) (st : Store) : MRes Unit :=
  let st0 := { st with deleted := st.deleted ++ [(name, d)] }
  let (f, st1) := takeFault st0
  if f then (.error (.e "injected fault"), st1)
  else (.ok (), { st1 with blobs := removeBlob st1.blobs (name, d) })

/-- Serialized size of a `Stored` handle.  Modelled from the spec (§6.1):
MessagePack struct-map encoding `{ "b": bucket, "d": descriptor }` — a map
header, two one-letter keys with headers, and the two payloads. -/
def sizeOfStored (s : Stored) : Nat :=
  1 + (2 + 1 + s.bucket.length) + (2 + 1 + s.descriptor.length)

mutual
/-- Serialized size of a block.  Modelled from the spec (§6.1): the
MessagePack struct-map encoding with one-letter external tags; the exact
byte counts of the original encoder are approximated, but every block
serializes to at least 2 bytes. -/
def serializedSizeB : BlockType → Nat
  | .Direct s _ _ => 2 + sizeOfStored s + 12
  | .Indirect bs => 2 + 2 + serializedSizeList bs
  | .Stored s => 2 + 2 + sizeOfStored s
termination_by structural b => b

/-- Serialized size of a child list (§6.1 `{ "b": [BlockType, …] }`). -/
def serializedSizeList : List BlockType → Nat
  | [] => 0
  | b :: bs => serializedSizeB b + serializedSizeList bs
termination_by structural l => l
end

/-- Serialized size of an inode.  Modelled from the spec (§6.1). -/
def sizeOfInode : InodeType → Nat
  | .File bs _ => 8 + 2 + 2 + serializedSizeList bs
  | .Directory cs _ => 8 + 2 + sizeOfChildren cs
where
  sizeOfChildren : List (String × Stored) → Nat
    | [] => 0
    | (n, s) :: rest => 2 + n.length + sizeOfStored s + sizeOfChildren rest

/-- Size in bytes of a serialized blob: a `DirectBlock` blob is exactly
the raw bytes; the structured blobs use the §6.1 encoding. -/
def serializedSize : Blob → Nat
  | .bytes d => d.length
  | .block b => serializedSizeB b
  | .inode i => sizeOfInode i

/-- `Stored::create` from src/stored.rs: serialize, ask the registry for a
bucket accepting the serialized size, reserve a descriptor, put the bytes,
and return the `(bucket, descriptor)` handle. -/
def storedCreate (g : Global) (v : Blob) (st : Store) : MRes Stored :=
  let size := serializedSize v
  match nextBucketM g size [] st with
  | (none, st1) =>
    (.error (.e ("No bucket found for data of size " ++ toString size)), st1)
  | (some name, st1) =>
    match getBucket g name with
    | none => (.error (.e "Bucket not found"), st1)
    | some _ =>
      bindE (bucketCreate name st1) fun desc st2 =>
        bindE (bucketPut name desc v st2) fun _ st3 =>
          (.ok ⟨name, desc⟩, st3)

/-- `Stored::get` from src/stored.rs, up to deserialization: look the
bucket up in the registry and fetch the raw blob. -/
def storedGetRaw (g : Global) (s : Stored) (st : Store) : MRes Blob :=
  match getBucket g s.bucket with
  | none => (.error (.e "Bucket not found"), st)
  | some _ => bucketGet s.bucket s.descriptor st

/-- `Stored::get::<Vec<u8>>`: fetch and deserialize raw bytes (a wrong
payload is a codec error). -/
def storedGetBytes (g : Global) (s : Stored) (st : Store) : MRes (List Nat) :=
  bindE (storedGetRaw g s st) fun v st1 =>
    match v with
    | .bytes d => (.ok d, st1)
    | _ => (.error (.e "Corrupted blob"), st1)

/-- `Stored::get::<BlockType>`: fetch and deserialize a block. -/
def storedGetBlock (g : Global) (s : Stored) (st : Store) : MRes BlockType :=
  bindE (storedGetRaw g s st) fun v st1 =>
    match v with
    | .block b => (.ok b, st1)
    | _ => (.error (.e "Corrupted blob"), st1)

/-- `Stored::get::<InodeType>`: fetch and deserialize an inode. -/
def storedGetInode (g : Global) (s : Stored) (st : Store) : MRes InodeType :=
  bindE (storedGetRaw g s st) fun v st1 =>
    match v with
    | .inode i => (.ok i, st1)
    | _ => (.error (.e "Corrupted blob"), st1)

/-- `Stored::put` from src/stored.rs: re-serialize and overwrite the blob
at the existing `(bucket, descriptor)`; the bucket is looked up by the
stored name, never re-picked. -/
def storedPut (g : Global) (s : Stored) (v : Blob) (st : Store) : MRes Unit :=
  match getBucket g s.bucket with
  | none => (.error (.e "Bucket not found"), st)
  | some _ => bucketPut s.bucket s.descriptor v st

/-- `Stored::delete` from src/stored.rs: look the bucket up and delete the
descriptor. -/
def storedDelete (g : Global) (s : Stored) (st : Store) : MRes Unit :=
  match getBucket g s.bucket with
  | none => (.error (.e "Bucket not found"), st)
  | some _ => bucketDelete s.bucket s.descriptor st

/-! ### URL form of a `Stored` (src/stored.rs `as_url` / `from_url`).

`urlencoding::encode` / `encode_binary` percent-encode every byte outside
the unreserved set (ASCII alphanumerics and `-` `.` `_` `~`) with
uppercase hex; `decode` / `decode_binary` turn `%XX` (either hex case)
back into a byte and pass invalid sequences through, and `decode`
additionally requires the decoded bytes to be valid UTF-8. -/

/-- Bytes the `urlencoding` crate leaves unescaped. -/
def isUnreserved (b : Nat) : Bool :=
  (48 ≤ b && b ≤ 57) || (65 ≤ b && b ≤ 90) || (97 ≤ b && b ≤ 122) ||
    b = 45 || b = 46 || b = 95 || b = 126

/-- Uppercase hex digit of a value below 16. -/
def hexDigitUpper (n : Nat) : Nat := if n < 10 then 48 + n else 55 + n

/-- Value of a hex digit byte, accepting both cases. -/
def fromHexDigit (c : Nat) : Option Nat :=
  if 48 ≤ c && c ≤ 57 then some (c - 48)
  else if 65 ≤ c && c ≤ 70 then some (c - 55)
  else if 97 ≤ c && c ≤ 102 then some (c - 87)
  else none

/-- `urlencoding::encode` / `encode_binary` on a byte sequence. -/
def encodeBytes : List Nat → List Nat
  | [] => []
  | b :: rest =>
    (if isUnreserved b then [b] else [37, hexDigitUpper (b / 16), hexDigitUpper (b % 16)])
      ++ encodeBytes rest

/-- The `.replace('$', "%24")` applied in `Stored::as_url` (byte 36 is
`$`, bytes 37 50 52 are `%24`). -/
def replaceDollar : List Nat → List Nat
  | [] => []
  | b :: rest => (if b = 36 then [37, 50, 52] else [b]) ++ replaceDollar rest

/-- `urlencoding::decode_binary`: percent-decode (`%` followed by two hex
digits becomes one byte), passing invalid escape sequences through
unchanged. -/
def decodeBytes : List Nat → List Nat
  | [] => []
  | [c] => [c]
  | [c1, c2] => [c1, c2]
  | c :: c1 :: c2 :: rest =>
    if c = 37 then
      match fromHexDigit c1, fromHexDigit c2 with
      | some h, some l => (16 * h + l) :: decodeBytes rest
      | _, _ => 37 :: decodeBytes (c1 :: c2 :: rest)
    else c :: decodeBytes (c1 :: c2 :: rest)

/-- UTF-8 validity of a byte sequence (the check performed by
`urlencoding::decode` when it builds a Rust `String`). -/
def isValidUtf8 : List Nat → Bool
  | [] => true
  | b :: rest =>
    if b < 0x80 then isValidUtf8 rest
    else if 0xC2 ≤ b && b ≤ 0xDF then
      match rest with
      | c :: r => isCont c && isValidUtf8 r
      | [] => false
    else if b = 0xE0 then
      match rest with
      | c1 :: c2 :: r => (0xA0 ≤ c1 && c1 ≤ 0xBF) && isCont c2 && isValidUtf8 r
      | _ => false
    else if (0xE1 ≤ b && b ≤ 0xEC) || b = 0xEE || b = 0xEF then
      match rest with
      | c1 :: c2 :: r => isCont c1 && isCont c2 && isValidUtf8 r
      | _ => false
    else if b = 0xED then
      match rest with
      | c1 :: c2 :: r => (0x80 ≤ c1 && c1 ≤ 0x9F) && isCont c2 && isValidUtf8 r
      | _ => false
    else if b = 0xF0 then
      match rest with
      | c1 :: c2 :: c3 :: r =>
        (0x90 ≤ c1 && c1 ≤ 0xBF) && isCont c2 && isCont c3 && isValidUtf8 r
      | _ => false
    else if 0xF1 ≤ b && b ≤ 0xF3 then
      match rest with
      | c1 :: c2 :: c3 :: r => isCont c1 && isCont c2 && isCont c3 && isValidUtf8 r
      | _ => false
    else if b = 0xF4 then
      match rest with
      | c1 :: c2 :: c3 :: r =>
        (0x80 ≤ c1 && c1 ≤ 0x8F) && isCont c2 && isCont c3 && isValidUtf8 r
      | _ => false
    else false
where
  isCont (c : Nat) : Bool := 0x80 ≤ c && c ≤ 0xBF

/-- `Stored::as_url` from src/stored.rs:
`urlencode(bucket).replace('$',"%24") ++ "$" ++ urlencode(descriptor).replace('$',"%24")`. -/
def asUrl (s : Stored) : List Nat :=
  replaceDollar (encodeBytes s.bucket) ++ [36] ++ replaceDollar (encodeBytes s.descriptor)

/-- `Stored::from_url` from src/stored.rs: percent-decode the two parts;
the bucket part must decode to valid UTF-8 (`"Invalid bucket"` otherwise),
the descriptor part is decoded binarily and cannot fail. -/
def fromUrl (bucketPart descriptorPart : List Nat) : Except Err Stored :=
  let b := decodeBytes bucketPart
  if isValidUtf8 b then .ok ⟨b, decodeBytes descriptorPart⟩
  else .error (.e "Invalid bucket")

/-- Split a URL at its first `$` (byte 36), as the shell does before
calling `Stored::from_url`. -/
def splitOnDollar (l : List Nat) : List Nat × List Nat :=
  match l with
  | [] => ([], [])
  | b :: rest =>
    if b = 36 then ([], rest)
    else
      let p := splitOnDollar rest
      (b :: p.1, p.2)

/-! ### Block operations.

Every block operation takes a fuel argument; recursive calls into a block
fetched from the store (the `StoredBlock` indirection) and into the next
level of `create` decrement it, as do the child calls of `range`, `get`
and `put` on an `Indirect`.  Fuel exhaustion yields `Err.fuel`. -/

/-- `Block::range` dispatched over the variants (src/blocks/block.rs):
`DirectBlock::range` is the inline `[start, end)` (modelled from the
spec: stored inline in the Direct node, infallible);
`IndirectBlock::range` (src/blocks/indirect_block.rs lines 22-39) is
`first.start .. last.end`, or `0..0` when the child list is empty;
`StoredBlock::range` (src/blocks/stored_block.rs lines 24-33) fetches the
inner block and delegates. -/
def rangeB : Nat → Global → BlockType → Store → MRes (Nat × Nat)
  | 0, _, _, st => (.error .fuel, st)
  | _ + 1, _, .Direct _ a b, st => (.ok (a, b), st)
  | f + 1, g, .Indirect bs, st =>
    match bs.head? with
    | none => (.ok (0, 0), st)
    | some first =>
      match bs.getLast? with
      | none => (.ok (0, 0), st)
      | some last =>
        bindE (rangeB f g first st) fun r1 st1 =>
          bindE (rangeB f g last st1) fun r2 st2 =>
            (.ok (r1.1, r2.2), st2)
  | f + 1, g, .Stored s, st =>
    bindE (storedGetBlock g s st) fun inner st1 => rangeB f g inner st1

/-- Concatenation of child streams, as in `IndirectBlock::get`
(src/blocks/indirect_block.rs lines 41-56): each child's chunks are
yielded in order; a failed chunk fails the stream. -/
def getSeq (rec : BlockType → Store → MRes (List (List Nat))) :
    List BlockType → Store → MRes (List (List Nat))
  | [], st => (.ok [], st)
  | b :: bs, st =>
    bindE (rec b st) fun cs1 st1 =>
      bindE (getSeq rec bs st1) fun cs2 st2 => (.ok (cs1 ++ cs2), st2)

/-- `Block::get` dispatched over the variants, as the list of chunks the
stream emits.  The advisory `range` argument is ignored by every variant
(leaves return their whole blob, `Indirect`/`Stored` merely forward it),
so it is omitted.  `DirectBlock::get` (modelled from the spec: fetches
the blob and yields it as one chunk); `IndirectBlock::get` concatenates
child streams; `StoredBlock::get` (src/blocks/stored_block.rs lines
46-59) fetches the inner block and streams it. -/
def getB : Nat → Global → BlockType → Store → MRes (List (List Nat))
  | 0, _, _, st => (.error .fuel, st)
  | _ + 1, g, .Direct s _ _, st =>
    bindE (storedGetBytes g s st) fun d st1 => (.ok [d], st1)
  | f + 1, g, .Indirect bs, st => getSeq (fun b st' => getB f g b st') bs st
  | f + 1, g, .Stored s, st =>
    bindE (storedGetBlock g s st) fun inner st1 => getB f g inner st1

/-- Human-readable message of an error (Rust errors are strings). -/
def errMsg : Err → String
  | .e m => m
  | .panic m => m
  | .fuel => "out of fuel"

/-- `errors.join(", ")`. -/
def joinErrors (ms : List String) : String := String.intercalate ", " ms

/-- Best-effort deletion sweep over a child list, collecting the message
of each plain failure and continuing (as in `IndirectBlock::delete`,
src/blocks/indirect_block.rs lines 105-121); a panic (or fuel exhaustion)
aborts the sweep. -/
def deleteSeq (rec : BlockType → Store → MRes Unit) :
    List BlockType → Store → MRes (List String)
  | [], st => (.ok [], st)
  | b :: bs, st =>
    match rec b st with
    | (.ok _, st1) => deleteSeq rec bs st1
    | (.error (.e m), st1) =>
      bindE (deleteSeq rec bs st1) fun ms st2 => (.ok (m :: ms), st2)
    | (.error err, st1) => (.error err, st1)

/-- `Block::delete` dispatched over the variants.
`DirectBlock::delete` (modelled from the spec: deletes the underlying
Stored); `IndirectBlock::delete` deletes every child, joining collected
errors; `StoredBlock::delete` (src/blocks/stored_block.rs lines 61-86)
calls `.unwrap()` on the fetch of the inner block — a failed fetch is a
Rust panic — then deletes the inner subtree and the wrapper's own Stored,
joining the collected errors. -/
def deleteB : Nat → Global → BlockType → Store → MRes Unit
  | 0, _, _, st => (.error .fuel, st)
  | _ + 1, g, .Direct s _ _, st => storedDelete g s st
  | f + 1, g, .Indirect bs, st =>
    match deleteSeq (fun b st' => deleteB f g b st') bs st with
    | (.ok [], st1) => (.ok (), st1)
    | (.ok ms, st1) => (.error (.e (joinErrors ms)), st1)
    | (.error err, st1) => (.error err, st1)
  | f + 1, g, .Stored s, st =>
    match storedGetBlock g s st with
    | (.error err, st1) => (.error (.panic (errMsg err)), st1)
    | (.ok inner, st1) =>
      match deleteB f g inner st1 with
      | (.ok _, st2) =>
        match storedDelete g s st2 with
        | (.ok _, st3) => (.ok (), st3)
        | (.error (.e m), st3) => (.error (.e (joinErrors [m])), st3)
        | (.error err, st3) => (.error err, st3)
      | (.error (.e m1), st2) =>
        match storedDelete g s st2 with
        | (.ok _, st3) => (.error (.e (joinErrors [m1])), st3)
        | (.error (.e m2), st3) => (.error (.e (joinErrors [m1, m2])), st3)
        | (.error err, st3) => (.error err, st3)
      | (.error err, st2) => (.error err, st2)

/-- `DirectBlock::create`.  Modelled from the spec:
src/blocks/direct_block.rs is not under src/ (only its tests and callers
are).  Per §4.3 and §8: creation with empty bytes fails; placement asks
the registry for a bucket able to hold at least one byte (property 1
equates "a bucket with effective max_size ≥ 1" with placement
succeeding); the new Direct absorbs as many bytes as the chosen bucket's
`max_size` allows, its blob is exactly the raw bytes, and its logical
range is recorded inline. -/
def directCreate (g : Global) (data : List Nat) (start : Nat) (st : Store) : MRes BlockType :=
  if data.isEmpty then (.error (.e "Cannot create an empty block"), st)
  else
    match nextBucketM g 1 [] st with
    | (none, st1) => (.error (.e "No bucket found"), st1)
    | (some name, st1) =>
      let maxSize := (getBucket g name).getD 0
      let absorbed := data.take maxSize
      bindE (bucketCreate name st1) fun desc st2 =>
        bindE (bucketPut name desc (.bytes absorbed) st2) fun _ st3 =>
          (.ok (.Direct ⟨name, desc⟩ start (start + absorbed.length)), st3)

/-- The child-creation loop of `IndirectBlock::create`
(src/blocks/indirect_block.rs lines 133-163) including its rollback
block: while data remains and fewer than `direct_block_count` children
exist, create a Direct child from the remaining slice.  A failure of
`DirectBlock::create` itself propagates via `?` with no cleanup; a
failure of `range()` on the freshly created child sets the error flag,
breaks, deletes every child created so far and returns the aggregated
error. -/
def createLoop (f : Nat) (g : Global) :
    Nat → List Nat → Nat → Nat → List BlockType → Store → MRes (List BlockType × Nat)
  | 0, _, _, start, acc, st => (.ok (acc, start), st)
  | slots + 1, data, off, start, acc, st =>
    if start < off + data.length then
      match directCreate g (data.drop (start - off)) start st with
      | (.error err, st1) => (.error err, st1)
      | (.ok b, st1) =>
        match rangeB f g b st1 with
        | (.error (.e m), st2) =>
          bindE (deleteSeq (fun b' st' => deleteB f g b' st') acc st2) fun ms st3 =>
            (.error (.e (joinErrors (m :: ms))), st3)
        | (.error err, st2) => (.error err, st2)
        | (.ok r, st2) => createLoop f g slots data off r.2 (acc ++ [b]) st2
    else (.ok (acc, start), st)

/-- The fused pair of mutually recursive constructors
`IndirectBlock::create` / `StoredBlock::create` (they call each other
through `BlockType::create`); the Bool discriminator selects which of the
two runs, keeping the recursion structural on the fuel.  The named
wrappers `createIndirect` and `storedBlockCreate` below carry the source
names, and their unfolding equations restate each body in terms of the
other wrapper. -/
def createMutual : Nat → Bool → Global → List Nat → Nat → Store → MRes BlockType
  | 0, _, _, _, _, st => (.error .fuel, st)
  | f + 1, false, g, data, start, st =>
    match createLoop f g g.direct_block_count data start start [] st with
    | (.error err, st1) => (.error err, st1)
    | (.ok (blocks, start'), st1) =>
      if start' < start + data.length then
        match createMutual f true g (data.drop (start' - start)) start' st1 with
        | (.error err, st2) => (.error err, st2)
        | (.ok b, st2) => (.ok (.Indirect (blocks ++ [b])), st2)
      else (.ok (.Indirect blocks), st1)
  | f + 1, true, g, data, start, st =>
    match createMutual f false g data start st with
    | (.error err, st1) => (.error err, st1)
    | (.ok inner, st1) =>
      bindE (storedCreate g (.block inner) st1) fun s st2 =>
        (.ok (.Stored s), st2)

/-- `IndirectBlock::create` from src/blocks/indirect_block.rs lines
123-173: greedily create Direct children, then wrap any remaining data in
a single StoredBlock tail, and return the `Indirect` of the collected
children. -/
def createIndirect (f : Nat) (g : Global) (data : List Nat) (start : Nat) (st : Store) :
    MRes BlockType :=
  createMutual f false g data start st

/-- `StoredBlock::create` from src/blocks/stored_block.rs lines 88-96:
build an inner block via the default factory (`BlockType::create`
delegates to `IndirectBlock::create`, src/blocks/block.rs lines 100-106),
then wrap it in a freshly placed `Stored`. -/
def storedBlockCreate (f : Nat) (g : Global) (data : List Nat) (start : Nat) (st : Store) :
    MRes BlockType :=
  createMutual f true g data start st

theorem createIndirect_zero (g : Global) (data : List Nat) (start : Nat) (st : Store) :
    createIndirect 0 g data start st = (.error .fuel, st) := rfl

theorem createIndirect_succ (f : Nat) (g : Global) (data : List Nat) (start : Nat)
    (st : Store) :
    createIndirect (f + 1) g data start st =
      (match createLoop f g g.direct_block_count data start start [] st with
       | (.error err, st1) => (.error err, st1)
       | (.ok (blocks, start'), st1) =>
         if start' < start + data.length then
           match storedBlockCreate f g (data.drop (start' - start)) start' st1 with
           | (.error err, st2) => (.error err, st2)
           | (.ok b, st2) => (.ok (.Indirect (blocks ++ [b])), st2)
         else (.ok (.Indirect blocks), st1)) := rfl

theorem storedBlockCreate_zero (g : Global) (data : List Nat) (start : Nat) (st : Store) :
    storedBlockCreate 0 g data start st = (.error .fuel, st) := rfl

theorem storedBlockCreate_succ (f : Nat) (g : Global) (data : List Nat) (start : Nat)
    (st : Store) :
    storedBlockCreate (f + 1) g data start st =
      (match createIndirect f g data start st with
       | (.error err, st1) => (.error err, st1)
       | (.ok inner, st1) =>
         bindE (storedCreate g (.block inner) st1) fun s st2 =>
           (.ok (.Stored s), st2)) := rfl

/-- `BlockType::create` from src/blocks/block.rs lines 100-106: the
default factory delegates to `IndirectBlock::create`. -/
def blockCreate (f : Nat) (g : Global) (data : List Nat) (start : Nat) (st : Store) :
    MRes BlockType :=
  createIndirect f g data start st

/-- The child-update loop of `IndirectBlock::put`
(src/blocks/indirect_block.rs lines 67-75): for each child in order,
fetch its range; break (leaving the remaining children untouched) when
`range.end <= start`, where `start` stays fixed at the put range's start;
otherwise slice the data at the child's range (relative to
`start_offset`) and delegate `put` to the child. -/
def putLoop (rangeRec : BlockType → Store → MRes (Nat × Nat))
    (putRec : BlockType → List Nat → Nat × Nat → Store → MRes BlockType)
    (startOffset start0 : Nat) (data : List Nat) :
    List BlockType → Store → MRes (List BlockType)
  | [], st => (.ok [], st)
  | b :: bs, st =>
    match rangeRec b st with
    | (.error err, st1) => (.error err, st1)
    | (.ok (bs_, be), st1) =>
      if be ≤ start0 then (.ok (b :: bs), st1)
      else
        match putRec b ((data.drop (bs_ - startOffset)).take (be - bs_)) (bs_, be) st1 with
        | (.error err, st2) => (.error err, st2)
        | (.ok b', st2) =>
          bindE (putLoop rangeRec putRec startOffset start0 data bs st2) fun bs' st3 =>
            (.ok (b' :: bs'), st3)

/-- The appending loop of `IndirectBlock::put`
(src/blocks/indirect_block.rs lines 83-93): while data remains and fewer
than `direct_block_count` children exist, create new Direct children;
both the create and the subsequent `range()` propagate errors via `?`
(no rollback here). -/
def putAppendLoop (f : Nat) (g : Global) :
    Nat → List Nat → Nat → Nat → Nat → List BlockType → Store → MRes (List BlockType × Nat)
  | 0, _, _, _, start, acc, st => (.ok (acc, start), st)
  | slots + 1, data, startOffset, rend, start, acc, st =>
    if start < rend then
      match directCreate g (data.drop (start - startOffset)) start st with
      | (.error err, st1) => (.error err, st1)
      | (.ok b, st1) =>
        match rangeB f g b st1 with
        | (.error err, st2) => (.error err, st2)
        | (.ok r, st2) => putAppendLoop f g slots data startOffset rend r.2 (acc ++ [b]) st2
    else (.ok (acc, start), st)

/-- `Block::put` dispatched over the variants.  `DirectBlock::put`
(modelled from the spec: requires the put range to equal the block's own
range, then overwrites the blob with the raw bytes);
`IndirectBlock::put` (src/blocks/indirect_block.rs lines 58-103): update
existing children in order, then set `start` to the last child's range
end (or the put range's start when there are no children), append Direct
children while data remains and fanout allows, and wrap any rest in a
StoredBlock tail; `StoredBlock::put` (src/blocks/stored_block.rs lines
35-44): fetch the inner block, delegate, and re-store the updated inner
block under the same Stored.  Returns the updated block (`&mut self` in
Rust). -/
def putB : Nat → Global → BlockType → List Nat → Nat × Nat → Store → MRes BlockType
  | 0, _, _, _, _, st => (.error .fuel, st)
  | _ + 1, g, .Direct s a b, data, r, st =>
    if r = (a, b) then
      bindE (storedPut g s (.bytes data) st) fun _ st1 => (.ok (.Direct s a b), st1)
    else (.error (.e "Invalid range"), st)
  | f + 1, g, .Indirect bs, data, r, st =>
    match putLoop (rangeB f g) (fun b d rr st' => putB f g b d rr st') r.1 r.1 data bs st with
    | (.error err, st1) => (.error err, st1)
    | (.ok bs1, st1) =>
      let cont : Nat → Store → MRes BlockType := fun start st' =>
        match putAppendLoop f g (g.direct_block_count - bs1.length) data r.1 r.2 start bs1 st' with
        | (.error err, st2) => (.error err, st2)
        | (.ok (bs2, start2), st2) =>
          if start2 < r.2 then
            match storedBlockCreate f g (data.drop (start2 - r.1)) start2 st2 with
            | (.error err, st3) => (.error err, st3)
            | (.ok b, st3) => (.ok (.Indirect (bs2 ++ [b])), st3)
          else (.ok (.Indirect bs2), st2)
      match bs1.getLast? with
      | none => cont r.1 st1
      | some lastB =>
        match rangeB f g lastB st1 with
        | (.error err, st2) => (.error err, st2)
        | (.ok lr, st2) => cont lr.2 st2
  | f + 1, g, .Stored s, data, r, st =>
    match storedGetBlock g s st with
    | (.error err, st1) => (.error err, st1)
    | (.ok inner, st1) =>
      match putB f g inner data r st1 with
      | (.error err, st2) => (.error err, st2)
      | (.ok inner', st2) =>
        bindE (storedPut g s (.block inner') st2) fun _ st3 => (.ok (.Stored s), st3)

/-- `File::create` from src/inodes/file.rs lines 33-45: build the root
via `IndirectBlock::create`; a non-Indirect result hits the
`panic!("This should never happen")` branch; metadata records the byte
size. -/
def fileCreate (f : Nat) (g : Global) (data : List Nat) (st : Store) : MRes InodeType :=
  match createIndirect f g data 0 st with
  | (.error err, st1) => (.error err, st1)
  | (.ok (.Indirect bs), st1) =>
    (.ok (.File bs { size := .Bytes data.length, created := st1.time, modified := st1.time }), st1)
  | (.ok _, st1) => (.error (.panic "This should never happen"), st1)

/-- Key membership in a directory's children map. -/
def containsKey : List (String × Stored) → String → Bool
  | [], _ => false
  | (n, _) :: rest, name => n = name || containsKey rest name

/-- `Metadata.modified(size)` (src/inodes/metadata.rs is not under src/).
Modelled from the spec: record the new size and refresh the modification
timestamp. -/
def Metadata.modifiedWith (m : Metadata) (sz : Size) (t : Nat) : Metadata :=
  { size := sz, created := m.created, modified := t }

/-- `Directory` from src/inodes/directory.rs: the `name -> Stored`
children map plus metadata. -/
structure Directory where
  children : List (String × Stored)
  metadata : Metadata

/-- `Directory::add` from src/inodes/directory.rs lines 67-85: fail if
the name exists; otherwise create a new Stored for the inode, insert it
under the name, update the metadata entry count to the new number of
children, and return the inserted Stored. -/
def directoryAdd (g : Global) (d : Directory) (name : String) (inode : InodeType)
    (st : Store) : MRes (Directory × Stored) :=
  if containsKey d.children name then
    (.error (.e ("File " ++ name ++ " already exists")), st)
  else
    match storedCreate g (.inode inode) st with
    | (.error err, st1) => (.error err, st1)
    | (.ok stored, st1) =>
      let children' := d.children ++ [(name, stored)]
      (.ok ({ children := children',
              metadata := d.metadata.modifiedWith (.Entries children'.length) st1.time },
            stored), st1)

/-! ### Basic lemmas about the store primitives. -/

theorem takeFault_nil (st : Store) (h : st.faults = []) : takeFault st = (false, st) := by
  cases st with
  | mk blobs nextDesc faults rand deleted time =>
    subst h
    rfl

theorem findBlob_setBlob_same (bs : List (Key × Blob)) (k : Key) (v : Blob) :
    findBlob (setBlob bs k v) k = some v := by
  induction bs with
  | nil => simp [setBlob, findBlob]
  | cons p rest ih =>
    by_cases h : p.1 = k
    · simp [setBlob, h, findBlob]
    · cases p with
      | mk k' v' =>
        simp only at h
        simp [setBlob, h, findBlob, ih]

theorem findBlob_setBlob_other (bs : List (Key × Blob)) (k k' : Key) (v : Blob)
    (h : k' ≠ k) : findBlob (setBlob bs k v) k' = findBlob bs k' := by
  have hkk : k ≠ k' := fun he => h he.symm
  induction bs with
  | nil => simp [setBlob, findBlob, hkk]
  | cons p rest ih =>
    cases p with
    | mk k0 v0 =>
      by_cases h0 : k0 = k
      · subst h0
        simp [setBlob, findBlob, hkk]
      · simp only [setBlob, h0, if_false, findBlob]
        by_cases h1 : k0 = k'
        · simp [h1]
        · simp [h1, ih]

/-- Registries coming from a Rust `HashMap` have pairwise-distinct bucket
names. -/
def BucketsNodup (g : Global) : Prop := (g.buckets.map Prod.fst).Nodup

theorem lookupBucket_of_mem_nodup (l : List (BucketName × Nat)) (name : BucketName)
    (m : Nat) (hnd : (l.map Prod.fst).Nodup) (hmem : (name, m) ∈ l) :
    getBucket.lookupBucket l name = some m := by
  induction l with
  | nil => cases hmem
  | cons p rest ih =>
    cases p with
    | mk n' m' =>
      simp only [List.map_cons, List.nodup_cons] at hnd
      rcases List.mem_cons.mp hmem with h | h
      · cases h
        simp [getBucket.lookupBucket]
      · have hne : n' ≠ name := by
          intro he
          exact hnd.1 (he ▸ (List.mem_map.mpr ⟨(name, m), h, rfl⟩))
        simp [getBucket.lookupBucket, hne, ih hnd.2 h]

theorem getBucket_of_mem_nodup (g : Global) (name : BucketName) (m : Nat)
    (hnd : BucketsNodup g) (hmem : (name, m) ∈ g.buckets) :
    getBucket g name = some m :=
  lookupBucket_of_mem_nodup g.buckets name m hnd hmem

theorem lookupBucket_isSome_of_mem (l : List (BucketName × Nat)) (name : BucketName)
    (m : Nat) (hmem : (name, m) ∈ l) :
    (getBucket.lookupBucket l name).isSome := by
  induction l with
  | nil => cases hmem
  | cons p rest ih =>
    cases p with
    | mk n' m' =>
      rcases List.mem_cons.mp hmem with h | h
      · cases h
        simp [getBucket.lookupBucket]
      · by_cases he : n' = name
        · simp [getBucket.lookupBucket, he]
        · simp [getBucket.lookupBucket, he, ih h]

theorem getBucket_isSome_of_mem (g : Global) (name : BucketName) (m : Nat)
    (hmem : (name, m) ∈ g.buckets) : (getBucket g name).isSome :=
  lookupBucket_isSome_of_mem g.buckets name m hmem

theorem mem_candidates (g : Global) (size : Nat) (E : List BucketName)
    (p : BucketName × Nat) :
    p ∈ candidates g size E ↔ p ∈ g.buckets ∧ size ≤ p.2 ∧ p.1 ∉ E := by
  simp only [candidates, List.mem_filter, decide_eq_true_eq, decide_not,
    Bool.not_eq_true', decide_eq_false_iff_not, and_assoc]
  constructor
  · rintro ⟨h1, h2, h3⟩
    exact ⟨h1, h2, by simpa [List.contains_iff_exists_mem_beq] using h3⟩
  · rintro ⟨h1, h2, h3⟩
    exact ⟨h1, h2, by simpa [List.contains_iff_exists_mem_beq] using h3⟩

theorem next_bucket_some (g : Global) (size : Nat) (E : List BucketName) (r : Nat)
    (n : BucketName) (h : next_bucket g size E r = some n) :
    ∃ m, (n, m) ∈ g.buckets ∧ size ≤ m ∧ n ∉ E := by
  unfold next_bucket at h
  rcases Option.map_eq_some'.mp h with ⟨p, hp, hpn⟩
  have hmem : p ∈ candidates g size E := List.get?_mem hp
  rcases (mem_candidates g size E p).mp hmem with ⟨h1, h2, h3⟩
  exact ⟨p.2, by rw [← hpn]; exact ⟨h1, h2, h3⟩⟩

theorem next_bucket_none (g : Global) (size : Nat) (E : List BucketName) (r : Nat) :
    next_bucket g size E r = none ↔
      ∀ n m, (n, m) ∈ g.buckets → size ≤ m → n ∈ E := by
  unfold next_bucket
  constructor
  · intro h n m hmem hsz
    by_contra hnE
    have hc : (n, m) ∈ candidates g size E :=
      (mem_candidates g size E (n, m)).mpr ⟨hmem, hsz, hnE⟩
    have hne : candidates g size E ≠ [] := by
      intro he
      rw [he] at hc
      cases hc
    have hlt : r % (candidates g size E).length < (candidates g size E).length :=
      Nat.mod_lt _ (List.length_pos.mpr hne)
    rcases List.get?_eq_get hlt ▸ (Option.map_eq_none'.mp h) with h'
    simp [List.get?_eq_get hlt] at h'
  · intro h
    have he : candidates g size E = [] := by
      rcases hc : candidates g size E with _ | ⟨p, rest⟩
      · rfl
      · exfalso
        have hp : p ∈ candidates g size E := by rw [hc]; exact List.mem_cons_self p rest
        rcases (mem_candidates g size E p).mp hp with ⟨h1, h2, h3⟩
        exact h3 (h p.1 p.2 h1 h2)
    simp [he]

/-! ### Claim C8: bucket placement filter. -/

/-- C8: whenever `Global::next_bucket(s, E)` returns `Some(name)`, the
registry contains a bucket of that name whose `max_size` is at least `s`
and whose name is not in `E`; and it returns `None` exactly when no
registered bucket satisfies both conditions. -/
theorem claim_c8_next_bucket_filter (g : Global) (s : Nat) (E : List BucketName) (r : Nat) :
    (∀ n, next_bucket g s E r = some n → ∃ m, (n, m) ∈ g.buckets ∧ s ≤ m ∧ n ∉ E) ∧
    (next_bucket g s E r = none ↔ ∀ n m, (n, m) ∈ g.buckets → s ≤ m → n ∈ E) :=
  ⟨fun n h => next_bucket_some g s E r n h, next_bucket_none g s E r⟩

/-- A two-bucket registry used to instantiate claim theorems. -/
def wGlobal : Global := { buckets := [([97], 30), ([98], 10)], direct_block_count := 10 }

/-- Witness for C8 at a concrete registry, size and exclusion list. -/
theorem claim_c8_witness :
    next_bucket wGlobal 20 [] 0 = some [97] ∧
      ∃ m, ([97], m) ∈ wGlobal.buckets ∧ 20 ≤ m ∧ [97] ∉ ([] : List BucketName) := by
  have h := claim_c8_next_bucket_filter wGlobal 20 [] 0
  exact ⟨by rfl, h.1 [97] (by rfl)⟩

/-! ### Claim C7: `Stored::put` preserves identity. -/

/-- C7: `Stored::put` writes the serialized bytes only to the stored
handle's own `(bucket, descriptor)` key (every other key of every backend
is untouched, and on success that key holds exactly the serialized
value), and it never invokes bucket placement: the random stream consumed
by `next_bucket` is untouched, no new descriptor is reserved, and no
deletion is requested.  The handle itself (`&self` in Rust) is unchanged
by construction. -/
theorem claim_c7_stored_put_frame (g : Global) (s : Stored) (v : Blob) (st : Store) :
    (storedPut g s v st).2.rand = st.rand ∧
    (storedPut g s v st).2.nextDesc = st.nextDesc ∧
    (storedPut g s v st).2.deleted = st.deleted ∧
    (∀ k : Key, k ≠ (s.bucket, s.descriptor) →
      findBlob (storedPut g s v st).2.blobs k = findBlob st.blobs k) ∧
    ((storedPut g s v st).1 = .ok () →
      findBlob (storedPut g s v st).2.blobs (s.bucket, s.descriptor) = some v) := by
  cases hgb : getBucket g s.bucket with
  | none =>
    have he : storedPut g s v st = (.error (.e "Bucket not found"), st) := by
      simp [storedPut, hgb]
    rw [he]
    exact ⟨rfl, rfl, rfl, fun _ _ => rfl, fun h => by cases h⟩
  | some m =>
    cases hfl : st.faults.headD false with
    | true =>
      have hfl' : st.faults.head?.getD false = true := by
        rw [← List.headD_eq_head?]
        exact hfl
      have he : storedPut g s v st =
          (.error (.e "injected fault"), { st with faults := st.faults.tail }) := by
        simp [storedPut, hgb, bucketPut, takeFault, hfl, hfl']
      rw [he]
      exact ⟨rfl, rfl, rfl, fun _ _ => rfl, fun h => by cases h⟩
    | false =>
      have hfl' : st.faults.head?.getD false = false := by
        rw [← List.headD_eq_head?]
        exact hfl
      have he : storedPut g s v st =
          (.ok (), { st with faults := st.faults.tail, blobs := setBlob st.blobs (s.bucket, s.descriptor) v }) := by
        simp [storedPut, hgb, bucketPut, takeFault, hfl, hfl']
      rw [he]
      exact ⟨rfl, rfl, rfl,
        fun k hk => findBlob_setBlob_other st.blobs (s.bucket, s.descriptor) k v hk,
        fun _ => findBlob_setBlob_same st.blobs (s.bucket, s.descriptor) v⟩

/-- Witness for C7: a concrete overwrite touches only its own key. -/
theorem claim_c7_witness :
    (storedPut wGlobal ⟨[97], [0]⟩ (.bytes [1, 2])
        { blobs := [(([97], [0]), .bytes [9]), (([97], [1]), .bytes [5])],
          nextDesc := 2, faults := [], rand := [3, 4], deleted := [], time := 0 }).2.rand
      = [3, 4] ∧
    findBlob (storedPut wGlobal ⟨[97], [0]⟩ (.bytes [1, 2])
        { blobs := [(([97], [0]), .bytes [9]), (([97], [1]), .bytes [5])],
          nextDesc := 2, faults := [], rand := [3, 4], deleted := [], time := 0 }).2.blobs
        ([97], [1]) = some (.bytes [5]) := by
  have h := claim_c7_stored_put_frame wGlobal ⟨[97], [0]⟩ (.bytes [1, 2])
    { blobs := [(([97], [0]), .bytes [9]), (([97], [1]), .bytes [5])],
      nextDesc := 2, faults := [], rand := [3, 4], deleted := [], time := 0 }
  refine ⟨h.1, ?_⟩
  rw [h.2.2.2.1 ([97], [1]) (by simp)]
  rfl

/-! ### Claim C5: `IndirectBlock::range`. -/

/-- C5: `IndirectBlock::range` returns `0..0` when the child list is
empty, and `first.range().start .. last.range().end` when it is
non-empty (given that the two child range computations succeed). -/
theorem claim_c5_indirect_range :
    (∀ (f : Nat) (g : Global) (st : Store),
      rangeB (f + 1) g (.Indirect []) st = (.ok (0, 0), st)) ∧
    (∀ (f : Nat) (g : Global) (st st1 st2 : Store) (bs : List BlockType)
      (first last : BlockType) (r1 r2 : Nat × Nat),
      bs.head? = some first → bs.getLast? = some last →
      rangeB f g first st = (.ok r1, st1) →
      rangeB f g last st1 = (.ok r2, st2) →
      rangeB (f + 1) g (.Indirect bs) st = (.ok (r1.1, r2.2), st2)) := by
  constructor
  · intro f g st
    rfl
  · intro f g st st1 st2 bs first last r1 r2 h1 h2 h3 h4
    show (match bs.head? with
      | none => (Except.ok (0, 0), st)
      | some first =>
        match bs.getLast? with
        | none => (Except.ok (0, 0), st)
        | some last =>
          bindE (rangeB f g first st) fun r1 st1 =>
            bindE (rangeB f g last st1) fun r2 st2 =>
              (Except.ok (r1.1, r2.2), st2)) = (Except.ok (r1.1, r2.2), st2)
    simp only [h1, h2]
    rw [h3, bindE_ok, h4, bindE_ok]

/-- Witness for C5 on a concrete two-child indirect block. -/
theorem claim_c5_witness :
    rangeB 2 wGlobal
        (.Indirect [.Direct ⟨[97], [0]⟩ 2 5, .Direct ⟨[97], [1]⟩ 5 9])
        { blobs := [], nextDesc := 0, faults := [], rand := [], deleted := [], time := 0 }
      = (.ok (2, 9),
         { blobs := [], nextDesc := 0, faults := [], rand := [], deleted := [], time := 0 }) := by
  have h := claim_c5_indirect_range.2 1 wGlobal
    { blobs := [], nextDesc := 0, faults := [], rand := [], deleted := [], time := 0 }
    { blobs := [], nextDesc := 0, faults := [], rand := [], deleted := [], time := 0 }
    { blobs := [], nextDesc := 0, faults := [], rand := [], deleted := [], time := 0 }
    [.Direct ⟨[97], [0]⟩ 2 5, .Direct ⟨[97], [1]⟩ 5 9]
    (.Direct ⟨[97], [0]⟩ 2 5) (.Direct ⟨[97], [1]⟩ 5 9) (2, 5) (5, 9)
    rfl rfl rfl rfl
  exact h

/-! ### Claim C6: URL round-trip. -/

theorem isUnreserved_ne_37 (b : Nat) (h : isUnreserved b = true) : b ≠ 37 := by
  intro he
  subst he
  exact absurd h (by decide)

theorem isUnreserved_ne_36 (b : Nat) (h : isUnreserved b = true) : b ≠ 36 := by
  intro he
  subst he
  exact absurd h (by decide)

theorem hexDigitUpper_ne_36 (n : Nat) : hexDigitUpper n ≠ 36 := by
  unfold hexDigitUpper
  split <;> omega

theorem fromHexDigit_hexDigitUpper (n : Nat) (h : n < 16) :
    fromHexDigit (hexDigitUpper n) = some n := by
  interval_cases n <;> rfl

theorem encodeBytes_ne_36 (l : List Nat) : ∀ x ∈ encodeBytes l, x ≠ 36 := by
  induction l with
  | nil => intro x hx; cases hx
  | cons b rest ih =>
    intro x hx
    simp only [encodeBytes, List.mem_append] at hx
    rcases hx with hx | hx
    · by_cases hu : isUnreserved b
      · simp only [hu, if_true, List.mem_singleton] at hx
        exact hx ▸ isUnreserved_ne_36 b hu
      · simp only [hu, Bool.false_eq_true, if_false, List.mem_cons, List.not_mem_nil,
          or_false] at hx
        rcases hx with hx | hx | hx
        · subst hx
          decide
        · exact hx ▸ hexDigitUpper_ne_36 _
        · exact hx ▸ hexDigitUpper_ne_36 _
    · exact ih x hx

theorem decodeBytes_cons_ne_37 (b : Nat) (l : List Nat) (h : b ≠ 37) :
    decodeBytes (b :: l) = b :: decodeBytes l := by
  match l with
  | [] => rfl
  | [c] => rfl
  | c1 :: c2 :: rest => simp [decodeBytes, h]

theorem decodeBytes_escape (c1 c2 : Nat) (l : List Nat) (x y : Nat)
    (h1 : fromHexDigit c1 = some x) (h2 : fromHexDigit c2 = some y) :
    decodeBytes (37 :: c1 :: c2 :: l) = (16 * x + y) :: decodeBytes l := by
  simp [decodeBytes, h1, h2]

theorem decodeBytes_encodeBytes (l : List Nat) (hl : ∀ b ∈ l, b < 256) :
    decodeBytes (encodeBytes l) = l := by
  induction l with
  | nil => rfl
  | cons b rest ih =>
    have hb : b < 256 := hl b (List.mem_cons_self b rest)
    have ihr := ih (fun x hx => hl x (List.mem_cons_of_mem b hx))
    by_cases hu : isUnreserved b
    · have hne : b ≠ 37 := isUnreserved_ne_37 b hu
      simp only [encodeBytes, hu, if_true, List.singleton_append]
      rw [decodeBytes_cons_ne_37 b _ hne, ihr]
    · simp only [encodeBytes, hu, if_false]
      show decodeBytes (37 :: hexDigitUpper (b / 16) :: hexDigitUpper (b % 16) :: encodeBytes rest)
        = b :: rest
      rw [decodeBytes_escape _ _ _ _ _ (fromHexDigit_hexDigitUpper _ (by omega))
        (fromHexDigit_hexDigitUpper _ (by omega)), ihr, Nat.div_add_mod]

theorem replaceDollar_of_ne_36 (l : List Nat) (h : ∀ x ∈ l, x ≠ 36) :
    replaceDollar l = l := by
  induction l with
  | nil => rfl
  | cons b rest ih =>
    have hb : b ≠ 36 := h b (List.mem_cons_self b rest)
    simp only [replaceDollar, hb, if_false, List.singleton_append]
    rw [ih (fun x hx => h x (List.mem_cons_of_mem b hx))]

theorem splitOnDollar_append (xs ys : List Nat) (h : ∀ x ∈ xs, x ≠ 36) :
    splitOnDollar (xs ++ 36 :: ys) = (xs, ys) := by
  induction xs with
  | nil => simp [splitOnDollar]
  | cons b rest ih =>
    have hb : b ≠ 36 := h b (List.mem_cons_self b rest)
    simp only [List.cons_append, splitOnDollar, hb, if_false, List.append_eq]
    rw [ih (fun x hx => h x (List.mem_cons_of_mem b hx))]

theorem count_36_eq_zero (l : List Nat) (h : ∀ x ∈ l, x ≠ 36) : l.count 36 = 0 :=
  List.count_eq_zero.mpr (fun hm => (h 36 hm) rfl)

/-- C6: `Stored::as_url` contains exactly one unescaped `$` separator
(byte 36), and `Stored::from_url` applied to the bucket part and the
descriptor part of the URL returns `Ok` of a `Stored` equal to the
original, for every bucket name (a Rust `String`, i.e. valid UTF-8 bytes)
and arbitrary descriptor bytes. -/
theorem claim_c6_url_roundtrip (bucket desc : List Nat)
    (hb : ∀ b ∈ bucket, b < 256) (hd : ∀ b ∈ desc, b < 256)
    (hu : isValidUtf8 bucket = true) :
    (asUrl ⟨bucket, desc⟩).count 36 = 1 ∧
    fromUrl (splitOnDollar (asUrl ⟨bucket, desc⟩)).1
        (splitOnDollar (asUrl ⟨bucket, desc⟩)).2 = .ok ⟨bucket, desc⟩ := by
  have hb36 := encodeBytes_ne_36 bucket
  have hd36 := encodeBytes_ne_36 desc
  have hurl : asUrl ⟨bucket, desc⟩ = encodeBytes bucket ++ 36 :: encodeBytes desc := by
    show replaceDollar (encodeBytes bucket) ++ [36] ++ replaceDollar (encodeBytes desc)
      = encodeBytes bucket ++ 36 :: encodeBytes desc
    rw [replaceDollar_of_ne_36 _ hb36, replaceDollar_of_ne_36 _ hd36, List.append_assoc]
    rfl
  have hsplit : splitOnDollar (asUrl ⟨bucket, desc⟩) = (encodeBytes bucket, encodeBytes desc) := by
    rw [hurl]
    exact splitOnDollar_append _ _ hb36
  constructor
  · rw [hurl, List.count_append, count_36_eq_zero _ hb36, List.count_cons_self,
      count_36_eq_zero _ hd36]
  · rw [hsplit]
    show fromUrl (encodeBytes bucket) (encodeBytes desc) = .ok ⟨bucket, desc⟩
    unfold fromUrl
    rw [decodeBytes_encodeBytes bucket hb, decodeBytes_encodeBytes desc hd]
    simp [hu]

/-- Witness for C6 on a bucket name and descriptor that both contain a
literal `$` (byte 36) and a non-ASCII descriptor byte. -/
theorem claim_c6_witness :
    (asUrl ⟨[97, 36], [36, 255]⟩).count 36 = 1 ∧
    fromUrl (splitOnDollar (asUrl ⟨[97, 36], [36, 255]⟩)).1
        (splitOnDollar (asUrl ⟨[97, 36], [36, 255]⟩)).2 = .ok ⟨[97, 36], [36, 255]⟩ :=
  claim_c6_url_roundtrip [97, 36] [36, 255] (by decide) (by decide) (by decide)

/-! ### Characterization of the primitive creation steps. -/

/-- Successful `DirectBlock::create` picks a capacity-filtered bucket,
reserves the next fresh descriptor, stores the absorbed prefix of the
data as raw bytes, and returns the `Direct` block with its inline range;
its full effect on the store is one new blob, one descriptor, one random
draw and two consumed fault flags. -/
theorem directCreate_ok (g : Global) (data : List Nat) (start : Nat) (st : Store)
    (b : BlockType) (st' : Store) (h : directCreate g data start st = (.ok b, st')) :
    ∃ name,
      next_bucket g 1 [] (st.rand.head?.getD 0) = some name ∧
      data ≠ [] ∧
      b = .Direct ⟨name, [st.nextDesc]⟩ start
            (start + (data.take ((getBucket g name).getD 0)).length) ∧
      st' = { st with
              blobs := setBlob st.blobs (name, [st.nextDesc])
                        (.bytes (data.take ((getBucket g name).getD 0))),
              nextDesc := st.nextDesc + 1,
              faults := st.faults.tail.tail,
              rand := st.rand.tail } := by
  unfold directCreate nextBucketM at h
  by_cases hdat : data.isEmpty
  · simp [hdat] at h
  · simp only [hdat, Bool.false_eq_true, if_false] at h
    cases hnb : next_bucket g 1 [] (st.rand.head?.getD 0) with
    | none => simp [hnb] at h
    | some name =>
      simp only [hnb] at h
      refine ⟨name, rfl, fun he => hdat (by simp [he]), ?_⟩
      unfold bucketCreate takeFault at h
      cases hf1 : ({ st with rand := st.rand.tail } : Store).faults.head?.getD false with
      | true => simp [hf1, bindE] at h
      | false =>
        simp only [hf1, Bool.false_eq_true, if_false, bindE_ok] at h
        unfold bucketPut takeFault at h
        simp only [List.head?_tail] at h
        cases hf2 : st.faults[1]?.getD false with
        | true => simp [hf2, bindE] at h
        | false =>
          simp only [hf2, Bool.false_eq_true, if_false, bindE_ok] at h
          rw [Prod.mk.injEq] at h
          obtain ⟨h1, h2⟩ := h
          obtain ⟨rfl⟩ := Except.ok.inj h1
          exact ⟨rfl, h2.symm⟩

/-- Successful `Stored::create` serializes the value, places it in a
bucket accepting the serialized size, reserves the next fresh descriptor
and writes the blob there; every other key, the deletion log and the
clock are untouched. -/
theorem storedCreate_ok (g : Global) (v : Blob) (st : Store) (s : Stored) (st' : Store)
    (h : storedCreate g v st = (.ok s, st')) :
    next_bucket g (serializedSize v) [] (st.rand.head?.getD 0) = some s.bucket ∧
    (getBucket g s.bucket).isSome ∧
    s.descriptor = [st.nextDesc] ∧
    st' = { st with
            blobs := setBlob st.blobs (s.bucket, [st.nextDesc]) v,
            nextDesc := st.nextDesc + 1,
            faults := st.faults.tail.tail,
            rand := st.rand.tail } := by
  unfold storedCreate nextBucketM at h
  cases hnb : next_bucket g (serializedSize v) [] (st.rand.head?.getD 0) with
  | none => simp [hnb] at h
  | some name =>
    simp only [hnb] at h
    cases hgb : getBucket g name with
    | none => simp [hgb] at h
    | some m =>
      simp only [hgb] at h
      unfold bucketCreate takeFault at h
      cases hf1 : ({ st with rand := st.rand.tail } : Store).faults.head?.getD false with
      | true => simp [hf1, bindE] at h
      | false =>
        simp only [hf1, Bool.false_eq_true, if_false, bindE_ok] at h
        unfold bucketPut takeFault at h
        simp only [List.head?_tail] at h
        cases hf2 : st.faults[1]?.getD false with
        | true => simp [hf2, bindE] at h
        | false =>
          simp only [hf2, Bool.false_eq_true, if_false, bindE_ok] at h
          rw [Prod.mk.injEq] at h
          obtain ⟨h1, h2⟩ := h
          have hs : ({ bucket := name, descriptor := [st.nextDesc] } : Stored) = s :=
            Except.ok.inj h1
          subst hs
          exact ⟨rfl, by simp [hgb], rfl, h2.symm⟩

/-- `DirectBlock::create` never panics. -/
theorem directCreate_no_panic (g : Global) (data : List Nat) (start : Nat) (st : Store)
    (m : String) : (directCreate g data start st).1 ≠ .error (.panic m) := by
  unfold directCreate nextBucketM
  by_cases hdat : data.isEmpty
  · simp [hdat]
  · simp only [hdat, Bool.false_eq_true, if_false]
    cases hnb : next_bucket g 1 [] (st.rand.head?.getD 0) with
    | none => simp
    | some name =>
      unfold bucketCreate takeFault
      cases hf1 : ({ st with rand := st.rand.tail } : Store).faults.head?.getD false with
      | true => simp [hf1, bindE]
      | false =>
        simp only [hf1, Bool.false_eq_true, if_false, bindE_ok]
        unfold bucketPut takeFault
        simp only [List.head?_tail]
        cases hf2 : st.faults[1]?.getD false with
        | true => simp [hf2, bindE]
        | false => simp [hf2, bindE]

/-- `DirectBlock::create` never produces the fuel artifact. -/
theorem directCreate_no_fuel (g : Global) (data : List Nat) (start : Nat) (st : Store) :
    (directCreate g data start st).1 ≠ .error .fuel := by
  unfold directCreate nextBucketM
  by_cases hdat : data.isEmpty
  · simp [hdat]
  · simp only [hdat, Bool.false_eq_true, if_false]
    cases hnb : next_bucket g 1 [] (st.rand.head?.getD 0) with
    | none => simp
    | some name =>
      unfold bucketCreate takeFault
      cases hf1 : ({ st with rand := st.rand.tail } : Store).faults.head?.getD false with
      | true => simp [hf1, bindE]
      | false =>
        simp only [hf1, Bool.false_eq_true, if_false, bindE_ok]
        unfold bucketPut takeFault
        simp only [List.head?_tail]
        cases hf2 : st.faults[1]?.getD false with
        | true => simp [hf2, bindE]
        | false => simp [hf2, bindE]

/-- A successful `DirectBlock::create` always returns the `Direct`
variant. -/
theorem directCreate_shape (g : Global) (data : List Nat) (start : Nat) (st : Store)
    (b : BlockType) (st' : Store) (h : directCreate g data start st = (.ok b, st')) :
    ∃ s a e, b = .Direct s a e := by
  obtain ⟨name, _, _, hb, _⟩ := directCreate_ok g data start st b st' h
  exact ⟨_, _, _, hb⟩

/-- `Stored::create` never panics. -/
theorem storedCreate_no_panic (g : Global) (v : Blob) (st : Store) (m : String) :
    (storedCreate g v st).1 ≠ .error (.panic m) := by
  unfold storedCreate nextBucketM
  cases hnb : next_bucket g (serializedSize v) [] (st.rand.head?.getD 0) with
  | none => simp [hnb]
  | some name =>
    simp only [hnb]
    cases hgb : getBucket g name with
    | none => simp [hgb]
    | some mm =>
      simp only [hgb]
      unfold bucketCreate takeFault
      cases hf1 : ({ st with rand := st.rand.tail } : Store).faults.head?.getD false with
      | true => simp [hf1, bindE]
      | false =>
        simp only [hf1, Bool.false_eq_true, if_false, bindE_ok]
        unfold bucketPut takeFault
        simp only [List.head?_tail]
        cases hf2 : st.faults[1]?.getD false with
        | true => simp [hf2, bindE]
        | false => simp [hf2, bindE]

/-- `Stored::create` never deletes anything. -/
theorem storedCreate_deleted (g : Global) (v : Blob) (st : Store) :
    (storedCreate g v st).2.deleted = st.deleted := by
  unfold storedCreate nextBucketM
  cases hnb : next_bucket g (serializedSize v) [] (st.rand.head?.getD 0) with
  | none => simp [hnb]
  | some name =>
    simp only [hnb]
    cases hgb : getBucket g name with
    | none => simp [hgb]
    | some mm =>
      simp only [hgb]
      unfold bucketCreate takeFault
      cases hf1 : ({ st with rand := st.rand.tail } : Store).faults.head?.getD false with
      | true => simp [hf1, bindE]
      | false =>
        simp only [hf1, Bool.false_eq_true, if_false, bindE_ok]
        unfold bucketPut takeFault
        simp only [List.head?_tail]
        cases hf2 : st.faults[1]?.getD false with
        | true => simp [hf2, bindE]
        | false => simp [hf2, bindE]

/-- `DirectBlock::create` never deletes anything. -/
theorem directCreate_deleted (g : Global) (data : List Nat) (start : Nat) (st : Store) :
    (directCreate g data start st).2.deleted = st.deleted := by
  unfold directCreate nextBucketM
  by_cases hdat : data.isEmpty
  · simp [hdat]
  · simp only [hdat, Bool.false_eq_true, if_false]
    cases hnb : next_bucket g 1 [] (st.rand.head?.getD 0) with
    | none => simp
    | some name =>
      unfold bucketCreate takeFault
      cases hf1 : ({ st with rand := st.rand.tail } : Store).faults.head?.getD false with
      | true => simp [hf1, bindE]
      | false =>
        simp only [hf1, Bool.false_eq_true, if_false, bindE_ok]
        unfold bucketPut takeFault
        simp only [List.head?_tail]
        cases hf2 : st.faults[1]?.getD false with
        | true => simp [hf2, bindE]
        | false => simp [hf2, bindE]

/-- `Block::range` on a `Direct` block is the inline range, infallible
and effect-free (given any fuel). -/
theorem rangeB_direct (f : Nat) (g : Global) (s : Stored) (a e : Nat) (st : Store) :
    rangeB (f + 1) g (.Direct s a e) st = (.ok (a, e), st) := rfl

/-- The child-creation loop of `IndirectBlock::create` never requests a
deletion: its rollback branch fires only on a `range()` failure of the
freshly created Direct child, which can only be the fuel artifact, and in
that case the error propagates before any delete is issued. -/
theorem createLoop_deleted (f : Nat) (g : Global) (slots : Nat) (data : List Nat)
    (off : Nat) : ∀ (start : Nat) (acc : List BlockType) (st : Store),
    ((createLoop f g slots data off start acc st).2).deleted = st.deleted := by
  induction slots with
  | zero => intro start acc st; rfl
  | succ slots ih =>
    intro start acc st
    by_cases hlt : start < off + data.length
    · simp only [createLoop, hlt, if_true]
      rcases hdc : directCreate g (data.drop (start - off)) start st with ⟨r, st1⟩
      have hdel : st1.deleted = st.deleted := by
        have := directCreate_deleted g (data.drop (start - off)) start st
        rw [hdc] at this
        exact this
      cases r with
      | error err => simp [hdel]
      | ok b =>
        obtain ⟨s, a, e, rfl⟩ :=
          directCreate_shape g (data.drop (start - off)) start st b st1 hdc
        cases f with
        | zero =>
          show ((match rangeB 0 g (.Direct s a e) st1 with
            | (.error (.e m), st2) =>
              bindE (deleteSeq (fun b' st' => deleteB 0 g b' st') acc st2) fun ms st3 =>
                (.error (.e (joinErrors (m :: ms))), st3)
            | (.error err, st2) => (.error err, st2)
            | (.ok r, st2) => createLoop 0 g slots data off r.2 (acc ++ [.Direct s a e]) st2 :
              MRes (List BlockType × Nat))).2.deleted = st.deleted
          exact hdel
        | succ m =>
          show ((match rangeB (m + 1) g (.Direct s a e) st1 with
            | (.error (.e mm), st2) =>
              bindE (deleteSeq (fun b' st' => deleteB (m + 1) g b' st') acc st2) fun ms st3 =>
                (.error (.e (joinErrors (mm :: ms))), st3)
            | (.error err, st2) => (.error err, st2)
            | (.ok r, st2) =>
              createLoop (m + 1) g slots data off r.2 (acc ++ [.Direct s a e]) st2 :
              MRes (List BlockType × Nat))).2.deleted = st.deleted
          rw [rangeB_direct]
          show ((createLoop (m + 1) g slots data off e (acc ++ [BlockType.Direct s a e]) st1)).2.deleted
            = st.deleted
          exact (ih e (acc ++ [BlockType.Direct s a e]) st1).trans hdel
    · simp [createLoop, hlt]

/-- The child-creation loop of `IndirectBlock::create` never panics. -/
theorem createLoop_no_panic (f : Nat) (g : Global) (slots : Nat) (data : List Nat)
    (off : Nat) : ∀ (start : Nat) (acc : List BlockType) (st : Store) (m : String),
    ((createLoop f g slots data off start acc st).1) ≠ .error (.panic m) := by
  induction slots with
  | zero => intro start acc st m h; cases h
  | succ slots ih =>
    intro start acc st m
    by_cases hlt : start < off + data.length
    · simp only [createLoop, hlt, if_true]
      rcases hdc : directCreate g (data.drop (start - off)) start st with ⟨r, st1⟩
      cases r with
      | error err =>
        intro h
        simp only at h
        obtain ⟨rfl⟩ : err = Err.panic m := by
          cases h
          rfl
        have := directCreate_no_panic g (data.drop (start - off)) start st m
        rw [hdc] at this
        exact this rfl
      | ok b =>
        obtain ⟨s, a, e, rfl⟩ :=
          directCreate_shape g (data.drop (start - off)) start st b st1 hdc
        cases f with
        | zero =>
          show ((match rangeB 0 g (.Direct s a e) st1 with
            | (.error (.e mm), st2) =>
              bindE (deleteSeq (fun b' st' => deleteB 0 g b' st') acc st2) fun ms st3 =>
                (.error (.e (joinErrors (mm :: ms))), st3)
            | (.error err, st2) => (.error err, st2)
            | (.ok r, st2) => createLoop 0 g slots data off r.2 (acc ++ [.Direct s a e]) st2 :
              MRes (List BlockType × Nat))).1 ≠ .error (.panic m)
          intro h
          cases h
        | succ mm =>
          show ((match rangeB (mm + 1) g (.Direct s a e) st1 with
            | (.error (.e m2), st2) =>
              bindE (deleteSeq (fun b' st' => deleteB (mm + 1) g b' st') acc st2) fun ms st3 =>
                (.error (.e (joinErrors (m2 :: ms))), st3)
            | (.error err, st2) => (.error err, st2)
            | (.ok r, st2) =>
              createLoop (mm + 1) g slots data off r.2 (acc ++ [.Direct s a e]) st2 :
              MRes (List BlockType × Nat))).1 ≠ .error (.panic m)
          rw [rangeB_direct]
          exact ih e (acc ++ [.Direct s a e]) st1 m
    · simp [createLoop, hlt]

/-- Neither `IndirectBlock::create` nor `StoredBlock::create` ever
requests a deletion, whatever the outcome: the claimed rollback is
unreachable, so a failed create leaves every already-created child in
place. -/
theorem createMutual_deleted (f : Nat) : ∀ (tag : Bool) (g : Global) (data : List Nat)
    (start : Nat) (st : Store),
    ((createMutual f tag g data start st).2).deleted = st.deleted := by
  induction f with
  | zero => intro tag g data start st; cases tag <;> rfl
  | succ f ih =>
    intro tag g data start st
    cases tag with
    | false =>
      show ((match createLoop f g g.direct_block_count data start start [] st with
        | (.error err, st1) => (.error err, st1)
        | (.ok (blocks, start'), st1) =>
          if start' < start + data.length then
            match createMutual f true g (data.drop (start' - start)) start' st1 with
            | (.error err, st2) => (.error err, st2)
            | (.ok b, st2) => (.ok (.Indirect (blocks ++ [b])), st2)
          else (.ok (.Indirect blocks), st1) : MRes BlockType)).2.deleted = st.deleted
      rcases hcl : createLoop f g g.direct_block_count data start start [] st with ⟨r, st1⟩
      have hdel : st1.deleted = st.deleted := by
        have := createLoop_deleted f g g.direct_block_count data start start [] st
        rw [hcl] at this
        exact this
      cases r with
      | error err => exact hdel
      | ok p =>
        obtain ⟨blocks, start'⟩ := p
        by_cases hlt : start' < start + data.length
        · simp only [hlt, if_true]
          rcases hsb : createMutual f true g (data.drop (start' - start)) start' st1
            with ⟨r2, st2⟩
          have hdel2 : st2.deleted = st1.deleted := by
            have := ih true g (data.drop (start' - start)) start' st1
            rw [hsb] at this
            exact this
          cases r2 with
          | error err => simp only []; rw [hdel2, hdel]
          | ok b => simp only []; rw [hdel2, hdel]
        · simp only [hlt, if_false]
          exact hdel
    | true =>
      show ((match createMutual f false g data start st with
        | (.error err, st1) => (.error err, st1)
        | (.ok inner, st1) =>
          bindE (storedCreate g (.block inner) st1) fun s st2 =>
            (.ok (.Stored s), st2) : MRes BlockType)).2.deleted = st.deleted
      rcases hci : createMutual f false g data start st with ⟨r, st1⟩
      have hdel : st1.deleted = st.deleted := by
        have := ih false g data start st
        rw [hci] at this
        exact this
      cases r with
      | error err => exact hdel
      | ok inner =>
        simp only []
        rcases hsc : storedCreate g (.block inner) st1 with ⟨r2, st2⟩
        have hdel2 : st2.deleted = st1.deleted := by
          have := storedCreate_deleted g (.block inner) st1
          rw [hsc] at this
          exact this
        cases r2 with
        | error err => simp only [bindE, hsc]; rw [hdel2, hdel]
        | ok s => simp only [bindE, hsc]; rw [hdel2, hdel]

/-- Neither `IndirectBlock::create` nor `StoredBlock::create` ever
panics. -/
theorem createMutual_no_panic (f : Nat) : ∀ (tag : Bool) (g : Global) (data : List Nat)
    (start : Nat) (st : Store) (m : String),
    ((createMutual f tag g data start st).1) ≠ .error (.panic m) := by
  induction f with
  | zero => intro tag g data start st m h; cases tag <;> cases h
  | succ f ih =>
    intro tag g data start st m
    cases tag with
    | false =>
      show ((match createLoop f g g.direct_block_count data start start [] st with
        | (.error err, st1) => (.error err, st1)
        | (.ok (blocks, start'), st1) =>
          if start' < start + data.length then
            match createMutual f true g (data.drop (start' - start)) start' st1 with
            | (.error err, st2) => (.error err, st2)
            | (.ok b, st2) => (.ok (.Indirect (blocks ++ [b])), st2)
          else (.ok (.Indirect blocks), st1) : MRes BlockType)).1 ≠ .error (.panic m)
      rcases hcl : createLoop f g g.direct_block_count data start start [] st with ⟨r, st1⟩
      cases r with
      | error err =>
        intro h
        obtain ⟨rfl⟩ : err = Err.panic m := by
          cases h
          rfl
        have := createLoop_no_panic f g g.direct_block_count data start start [] st m
        rw [hcl] at this
        exact this rfl
      | ok p =>
        obtain ⟨blocks, start'⟩ := p
        by_cases hlt : start' < start + data.length
        · simp only [hlt, if_true]
          rcases hsb : createMutual f true g (data.drop (start' - start)) start' st1
            with ⟨r2, st2⟩
          cases r2 with
          | error err =>
            intro h
            obtain ⟨rfl⟩ : err = Err.panic m := by
              cases h
              rfl
            have := ih true g (data.drop (start' - start)) start' st1 m
            rw [hsb] at this
            exact this rfl
          | ok b => intro h; cases h
        · simp only [hlt, if_false]
          intro h
          cases h
    | true =>
      show ((match createMutual f false g data start st with
        | (.error err, st1) => (.error err, st1)
        | (.ok inner, st1) =>
          bindE (storedCreate g (.block inner) st1) fun s st2 =>
            (.ok (.Stored s), st2) : MRes BlockType)).1 ≠ .error (.panic m)
      rcases hci : createMutual f false g data start st with ⟨r, st1⟩
      cases r with
      | error err =>
        intro h
        obtain ⟨rfl⟩ : err = Err.panic m := by
          cases h
          rfl
        have := ih false g data start st m
        rw [hci] at this
        exact this rfl
      | ok inner =>
        simp only []
        rcases hsc : storedCreate g (.block inner) st1 with ⟨r2, st2⟩
        cases r2 with
        | error err =>
          simp only [bindE, hsc]
          intro h
          obtain ⟨rfl⟩ : err = Err.panic m := by
            cases h
            rfl
          have := storedCreate_no_panic g (.block inner) st1 m
          rw [hsc] at this
          exact this rfl
        | ok s =>
          simp only [bindE, hsc]
          intro h
          cases h

/-- A successful `IndirectBlock::create` returns the `Indirect` variant. -/
theorem createIndirect_ok_shape (f : Nat) (g : Global) (data : List Nat) (start : Nat)
    (st : Store) (b : BlockType) (st' : Store)
    (h : createIndirect f g data start st = (.ok b, st')) : ∃ bs, b = .Indirect bs := by
  cases f with
  | zero =>
    rw [createIndirect_zero] at h
    simp at h
  | succ f =>
    rw [createIndirect_succ] at h
    rcases hcl : createLoop f g g.direct_block_count data start start [] st with ⟨r, st1⟩
    rw [hcl] at h
    cases r with
    | error err => simp at h
    | ok p =>
      obtain ⟨blocks, start'⟩ := p
      by_cases hlt : start' < start + data.length
      · simp only [hlt, if_true] at h
        rcases hsb : storedBlockCreate f g (data.drop (start' - start)) start' st1
          with ⟨r2, st2⟩
        rw [hsb] at h
        cases r2 with
        | error err => simp at h
        | ok b2 =>
          simp only [Prod.mk.injEq] at h
          exact ⟨blocks ++ [b2], (Except.ok.inj h.1).symm⟩
      · simp only [hlt, if_false, Prod.mk.injEq] at h
        exact ⟨blocks, (Except.ok.inj h.1).symm⟩

/-! ### Claim C2: rollback on partial create (corrected). -/

/-- C2 (amended): during `IndirectBlock::create` no deletion is ever
requested, whatever the outcome.  A failure of the k-th
`DirectBlock::create` propagates via `?` with the previously created
children left in place; the rollback branch fires only on a `range()`
failure of the freshly created Direct child, which is infallible, so the
claimed deletion of the k-1 earlier children never happens. -/
theorem claim_c2_create_never_deletes (f : Nat) (g : Global) (data : List Nat)
    (start : Nat) (st : Store) :
    ((createIndirect f g data start st).2).deleted = st.deleted :=
  createMutual_deleted f false g data start st

/-- Registry and store used by the C2 counterexample: one bucket of
capacity 5, fanout 10, and a backend that fails its third operation
(the `bucket.create` of the second Direct child). -/
def c2Global : Global := { buckets := [([97], 5)], direct_block_count := 10 }

/-- Fault script for the C2 counterexample. -/
def c2Store : Store :=
  { blobs := [], nextDesc := 0, faults := [false, false, true], rand := [],
    deleted := [], time := 0 }

/-- C2 counterexample: creating 7 bytes with a fault injected into the
second Direct child's `bucket.create` makes `IndirectBlock::create`
return the bare backend error — not an aggregate — while the first
child's blob is still stored and no deletion was ever requested, contrary
to the claimed rollback. -/
theorem claim_c2_counterexample :
    (createIndirect 3 c2Global [1, 1, 1, 1, 1, 1, 1] 0 c2Store).1
        = .error (.e "injected fault") ∧
    findBlob (createIndirect 3 c2Global [1, 1, 1, 1, 1, 1, 1] 0 c2Store).2.blobs
        ([97], [0]) = some (.bytes [1, 1, 1, 1, 1]) ∧
    (createIndirect 3 c2Global [1, 1, 1, 1, 1, 1, 1] 0 c2Store).2.deleted = [] := by
  have h1 : createLoop 2 c2Global 10 [1, 1, 1, 1, 1, 1, 1] 0 0 [] c2Store
      = (.error (.e "injected fault"),
         { blobs := [(([97], [0]), .bytes [1, 1, 1, 1, 1])], nextDesc := 1,
           faults := [], rand := [], deleted := [], time := 0 }) := rfl
  have h2 : createIndirect 3 c2Global [1, 1, 1, 1, 1, 1, 1] 0 c2Store
      = (.error (.e "injected fault"),
         { blobs := [(([97], [0]), .bytes [1, 1, 1, 1, 1])], nextDesc := 1,
           faults := [], rand := [], deleted := [], time := 0 }) := by
    rw [createIndirect_succ]
    rw [show c2Global.direct_block_count = 10 from rfl]
    rw [h1]
  rw [h2]
  exact ⟨rfl, rfl, rfl⟩

/-! ### Claim C10: the default factory always yields `Indirect`. -/

/-- C10: every successful `BlockType::create` (which delegates to
`IndirectBlock::create`) returns the `Indirect` variant, and
`File::create` can never reach its `panic!("This should never happen")`
branch — it never returns a panic of any kind. -/
theorem claim_c10_factory_always_indirect :
    (∀ (f : Nat) (g : Global) (data : List Nat) (start : Nat) (st : Store)
      (b : BlockType) (st' : Store),
      blockCreate f g data start st = (.ok b, st') → ∃ bs, b = .Indirect bs) ∧
    (∀ (f : Nat) (g : Global) (data : List Nat) (st : Store) (e : Err) (st' : Store),
      fileCreate f g data st = (.error e, st') → ∀ m, e ≠ .panic m) := by
  constructor
  · intro f g data start st b st' h
    exact createIndirect_ok_shape f g data start st b st' h
  · intro f g data st e st' h m
    unfold fileCreate at h
    rcases hci : createIndirect f g data 0 st with ⟨r, st1⟩
    rw [hci] at h
    cases r with
    | error err =>
      simp only [Prod.mk.injEq] at h
      obtain ⟨he, _⟩ := h
      obtain ⟨rfl⟩ : err = e := Except.error.inj he
      intro hp
      subst hp
      have := createMutual_no_panic f false g data 0 st m
      rw [show createMutual f false g data 0 st = createIndirect f g data 0 st from rfl,
        hci] at this
      exact this rfl
    | ok b =>
      obtain ⟨bs, rfl⟩ := createIndirect_ok_shape f g data 0 st b st1 hci
      simp at h

/-- Witness for C10: the concrete create from the C1 witness
configuration yields the `Indirect` variant. -/
theorem claim_c10_witness :
    ∃ bs, (BlockType.Indirect [.Direct ⟨[97], [0]⟩ 0 3]) = .Indirect bs := by
  have h := claim_c10_factory_always_indirect.1 2 wGlobal [1, 2, 3] 0
    { blobs := [], nextDesc := 0, faults := [], rand := [], deleted := [], time := 0 }
    (.Indirect [.Direct ⟨[97], [0]⟩ 0 3])
    { blobs := [(([97], [0]), .bytes [1, 2, 3])], nextDesc := 1, faults := [],
      rand := [], deleted := [], time := 0 }
  exact h rfl

/-! ### Claim C4: `StoredBlock::delete` (code bug). -/

/-- Empty fault-free store for the C4 panic case: the wrapper's blob is
absent, so fetching the inner block fails. -/
def c4Store : Store :=
  { blobs := [], nextDesc := 0, faults := [], rand := [], deleted := [], time := 0 }

/-- Store for the C4 aggregate case: the wrapper's blob deserializes to a
Direct block whose bucket `[98]` is not in the registry (inner delete
fails with "Bucket not found"), and a fault is injected into the outer
delete. -/
def c4StoreAgg : Store :=
  { blobs := [(([97], [5]), .block (.Direct ⟨[98], [1]⟩ 0 1))], nextDesc := 6,
    faults := [false, true], rand := [], deleted := [], time := 0 }

/-- C4: `StoredBlock::delete` panics (via the `.unwrap()` on the fetch of
the inner block) when the wrapper's blob cannot be read, instead of
attempting the outer delete and reporting a codec error — confirming the
latent bug the spec flags.  When the fetch succeeds, it does attempt the
outer delete after a failed inner delete and aggregates both errors. -/
theorem claim_c4_stored_delete_panic :
    (deleteB 3 c2Global (.Stored ⟨[97], [0]⟩) c4Store).1
        = .error (.panic "Blob not found") ∧
    (deleteB 3 c2Global (.Stored ⟨[97], [5]⟩) c4StoreAgg).1
        = .error (.e "Bucket not found, injected fault") :=
  ⟨rfl, rfl⟩

/-! ### Claim C9: `Directory::add`. -/

/-- C9: `Directory::add(name, inode)` fails with "File … already exists"
when the name is already a key — leaving the children map, the metadata
and the whole store untouched — and on success it creates exactly one new
Stored (one fresh descriptor, one new blob holding the serialized inode,
every other key untouched), inserts it under the name, and sets the
metadata entry count to the new number of children. -/
theorem claim_c9_directory_add (g : Global) (d : Directory) (name : String)
    (inode : InodeType) (st : Store) :
    (containsKey d.children name = true →
      directoryAdd g d name inode st
        = (.error (.e ("File " ++ name ++ " already exists")), st)) ∧
    (containsKey d.children name = false →
      ∀ (d' : Directory) (stored : Stored) (st' : Store),
        directoryAdd g d name inode st = (.ok (d', stored), st') →
        d'.children = d.children ++ [(name, stored)] ∧
        d'.metadata.size = .Entries (d.children.length + 1) ∧
        st'.nextDesc = st.nextDesc + 1 ∧
        findBlob st'.blobs (stored.bucket, stored.descriptor) = some (.inode inode) ∧
        (∀ k : Key, k ≠ (stored.bucket, stored.descriptor) →
          findBlob st'.blobs k = findBlob st.blobs k)) := by
  constructor
  · intro hc
    unfold directoryAdd
    simp [hc]
  · intro hnc d' stored st' h
    unfold directoryAdd at h
    simp only [hnc, Bool.false_eq_true, if_false] at h
    rcases hsc : storedCreate g (.inode inode) st with ⟨r, st1⟩
    rw [hsc] at h
    cases r with
    | error err => simp at h
    | ok s0 =>
      simp only [Prod.mk.injEq] at h
      obtain ⟨h1, rfl⟩ := h
      have hp := Except.ok.inj h1
      rw [Prod.mk.injEq] at hp
      obtain ⟨hd', hs⟩ := hp
      subst hs
      subst hd'
      obtain ⟨hnb, hgb, hdesc, hst⟩ := storedCreate_ok g (.inode inode) st s0 st1 hsc
      refine ⟨rfl, by simp [Metadata.modifiedWith], ?_, ?_, ?_⟩
      · rw [hst]
      · rw [hst, hdesc]
        exact findBlob_setBlob_same st.blobs (s0.bucket, [st.nextDesc]) (.inode inode)
      · intro k hk
        rw [hst]
        rw [hdesc] at hk
        exact findBlob_setBlob_other st.blobs (s0.bucket, [st.nextDesc]) k
          (.inode inode) hk

/-- Metadata literal used by concrete runs. -/
def meta0 : Metadata := { size := .Bytes 0, created := 0, modified := 0 }

/-- Witness for C9: a concrete successful add into an empty directory,
and a concrete rejected duplicate add. -/
theorem claim_c9_witness :
    (directoryAdd wGlobal ⟨[], meta0⟩ "a" (.Directory [] meta0) c4Store
        = (.ok (⟨[("a", ⟨[97], [0]⟩)],
                 { size := .Entries 1, created := 0, modified := 0 }⟩, ⟨[97], [0]⟩),
           { blobs := [(([97], [0]), .inode (.Directory [] meta0))], nextDesc := 1,
             faults := [], rand := [], deleted := [], time := 0 })) ∧
    (⟨[("a", ⟨[97], [0]⟩)], { size := .Entries 1, created := 0, modified := 0 }⟩ :
        Directory).children = ([] : List (String × Stored)) ++ [("a", ⟨[97], [0]⟩)] ∧
    directoryAdd wGlobal ⟨[("a", ⟨[97], [0]⟩)], meta0⟩ "a" (.Directory [] meta0) c4Store
        = (.error (.e ("File " ++ "a" ++ " already exists")), c4Store) := by
  have hadd : directoryAdd wGlobal ⟨[], meta0⟩ "a" (.Directory [] meta0) c4Store
      = (.ok (⟨[("a", ⟨[97], [0]⟩)],
               { size := .Entries 1, created := 0, modified := 0 }⟩, ⟨[97], [0]⟩),
         { blobs := [(([97], [0]), .inode (.Directory [] meta0))], nextDesc := 1,
           faults := [], rand := [], deleted := [], time := 0 }) := rfl
  have h := (claim_c9_directory_add wGlobal ⟨[], meta0⟩ "a" (.Directory [] meta0)
    c4Store).2 rfl _ _ _ hadd
  refine ⟨hadd, h.1, ?_⟩
  exact (claim_c9_directory_add wGlobal ⟨[("a", ⟨[97], [0]⟩)], meta0⟩ "a"
    (.Directory [] meta0) c4Store).1 rfl

/-! ### The block-tree representation invariant.

`TreeOk f g st b start D lo hi` states that, in store `st`, the subtree
`b` faithfully represents the byte segment `D` at logical offset `start`
(with fuel `f` mirroring the fuel discipline of `getB`), and that every
blob key the subtree references has its descriptor number in `[lo, hi)`;
inside a `Stored` wrapper the inner subtree's keys lie strictly below the
wrapper's own key, mirroring creation order.  Every child of an
`Indirect` covers at least one byte, as the creation path guarantees. -/

/-- Chained invariant for a child list: the segments of consecutive
children partition `D` contiguously from `start`, with chained descriptor
intervals. -/
def TreeListOk (P : BlockType → Nat → List Nat → Nat → Nat → Prop) :
    List BlockType → Nat → List Nat → Nat → Nat → Prop
  | [], _, D, lo, hi => D = [] ∧ lo ≤ hi
  | b :: bs, start, D, lo, hi =>
    ∃ D1 D2 mid, D = D1 ++ D2 ∧ D1 ≠ [] ∧ lo ≤ mid ∧
      P b start D1 lo mid ∧ TreeListOk P bs (start + D1.length) D2 mid hi

/-- The representation invariant for one subtree. -/
def TreeOk : Nat → Global → Store → BlockType → Nat → List Nat → Nat → Nat → Prop
  | 0, _, _, _, _, _, _, _ => False
  | _ + 1, g, st, .Direct s a e, start, D, lo, hi =>
    (getBucket g s.bucket).isSome = true ∧
    findBlob st.blobs (s.bucket, s.descriptor) = some (.bytes D) ∧
    a = start ∧ e = start + D.length ∧ D ≠ [] ∧
    lo ≤ dnum s.descriptor ∧ dnum s.descriptor < hi
  | f + 1, g, st, .Indirect bs, start, D, lo, hi =>
    TreeListOk (fun b s' D' l h => TreeOk f g st b s' D' l h) bs start D lo hi
  | f + 1, g, st, .Stored s, start, D, lo, hi =>
    ∃ inner mid, (getBucket g s.bucket).isSome = true ∧
      findBlob st.blobs (s.bucket, s.descriptor) = some (.block inner) ∧
      D ≠ [] ∧ lo ≤ mid ∧ mid ≤ dnum s.descriptor ∧ dnum s.descriptor < hi ∧
      TreeOk f g st inner start D lo mid

theorem TreeListOk_le {P : BlockType → Nat → List Nat → Nat → Nat → Prop}
    (hP : ∀ b s' D' l h, P b s' D' l h → l ≤ h) :
    ∀ (bs : List BlockType) (s : Nat) (D : List Nat) (lo hi : Nat),
      TreeListOk P bs s D lo hi → lo ≤ hi := by
  intro bs
  induction bs with
  | nil => intro s D lo hi h; exact h.2
  | cons b rest ih =>
    intro s D lo hi h
    obtain ⟨D1, D2, mid, _, _, hlom, hP1, hrest⟩ := h
    exact le_trans hlom (ih _ _ _ _ hrest)

theorem TreeOk_le : ∀ (f : Nat) (g : Global) (st : Store) (b : BlockType)
    (start : Nat) (D : List Nat) (lo hi : Nat),
    TreeOk f g st b start D lo hi → lo ≤ hi := by
  intro f
  induction f with
  | zero => intro g st b start D lo hi h; cases h
  | succ f ih =>
    intro g st b start D lo hi h
    cases b with
    | Direct s a e =>
      obtain ⟨_, _, _, _, _, h1, h2⟩ := h
      omega
    | Indirect bs =>
      exact TreeListOk_le (fun b s' D' l hh hp => ih g st b s' D' l hh hp) bs start D lo hi h
    | Stored s =>
      obtain ⟨inner, mid, _, _, _, h1, h2, h3, _⟩ := h
      omega

/-- Weakening a child-list invariant pointwise, within the outer
descriptor interval. -/
theorem TreeListOk_mono_within {P Q : BlockType → Nat → List Nat → Nat → Nat → Prop}
    (LO HI : Nat)
    (hPle : ∀ b s' D' l h, P b s' D' l h → l ≤ h)
    (himp : ∀ b s' D' l h, LO ≤ l → h ≤ HI → P b s' D' l h → Q b s' D' l h) :
    ∀ (bs : List BlockType) (s : Nat) (D : List Nat) (lo hi : Nat),
      LO ≤ lo → hi ≤ HI → TreeListOk P bs s D lo hi → TreeListOk Q bs s D lo hi := by
  intro bs
  induction bs with
  | nil => intro s D lo hi _ _ h; exact h
  | cons b rest ih =>
    intro s D lo hi hlo hhi h
    obtain ⟨D1, D2, mid, hD, hne, hlom, hP1, hrest⟩ := h
    have hmidhi : mid ≤ hi := TreeListOk_le hPle rest _ _ _ _ hrest
    exact ⟨D1, D2, mid, hD, hne, hlom,
      himp b s D1 lo mid hlo (le_trans hmidhi hhi) hP1,
      ih _ _ _ _ (le_trans hlo hlom) hhi hrest⟩

/-- The invariant only looks at keys whose descriptor number lies in
`[lo, hi)`: two stores agreeing there are interchangeable. -/
theorem TreeOk_frame : ∀ (f : Nat) (g : Global) (st st' : Store) (b : BlockType)
    (start : Nat) (D : List Nat) (lo hi : Nat),
    TreeOk f g st b start D lo hi →
    (∀ (name : BucketName) (d : Descriptor), lo ≤ dnum d → dnum d < hi →
      findBlob st'.blobs (name, d) = findBlob st.blobs (name, d)) →
    TreeOk f g st' b start D lo hi := by
  intro f
  induction f with
  | zero => intro g st st' b start D lo hi h _; cases h
  | succ f ih =>
    intro g st st' b start D lo hi h hag
    cases b with
    | Direct s a e =>
      obtain ⟨hgb, hfind, ha, he, hne, h1, h2⟩ := h
      exact ⟨hgb, (hag s.bucket s.descriptor h1 h2).trans hfind, ha, he, hne, h1, h2⟩
    | Indirect bs =>
      show TreeListOk (fun b s' D' l hh => TreeOk f g st' b s' D' l hh) bs start D lo hi
      refine TreeListOk_mono_within lo hi
        (fun b s' D' l hh hp => TreeOk_le f g st b s' D' l hh hp)
        (fun b s' D' l hh hl hh2 hp =>
          ih g st st' b s' D' l hh hp
            (fun name d hd1 hd2 => hag name d (le_trans hl hd1) (lt_of_lt_of_le hd2 hh2)))
        bs start D lo hi (le_refl lo) (le_refl hi) h
    | Stored s =>
      obtain ⟨inner, mid, hgb, hfind, hne, h1, h2, h3, hin⟩ := h
      exact ⟨inner, mid, hgb,
        (hag s.bucket s.descriptor (le_trans h1 h2) h3).trans hfind, hne, h1, h2, h3,
        ih g st st' inner start D lo mid hin
          (fun name d hd1 hd2 => hag name d hd1 (lt_of_lt_of_le hd2 (le_trans h2 (le_of_lt h3))))⟩

/-- Widening the reference interval of a chained list (given that the
pointwise predicate widens). -/
theorem TreeListOk_widen {P : BlockType → Nat → List Nat → Nat → Nat → Prop}
    (hw : ∀ b s' D' l h l' h', l' ≤ l → h ≤ h' → P b s' D' l h → P b s' D' l' h') :
    ∀ (bs : List BlockType) (s : Nat) (D : List Nat) (lo hi lo' hi' : Nat),
      lo' ≤ lo → hi ≤ hi' → TreeListOk P bs s D lo hi → TreeListOk P bs s D lo' hi' := by
  intro bs
  induction bs with
  | nil =>
    intro s D lo hi lo' hi' h1 h2 h
    obtain ⟨hD, hle⟩ := h
    exact ⟨hD, by omega⟩
  | cons b rest ih =>
    intro s D lo hi lo' hi' h1 h2 h
    obtain ⟨D1, D2, mid, hD, hne, hlom, hPx, hrest⟩ := h
    exact ⟨D1, D2, mid, hD, hne, le_trans h1 hlom,
      hw b s D1 lo mid lo' mid h1 (le_refl mid) hPx,
      ih _ _ mid hi mid hi' (le_refl mid) h2 hrest⟩

/-- Widening the reference interval of a subtree invariant. -/
theorem TreeOk_widen : ∀ (f : Nat) (g : Global) (st : Store) (b : BlockType)
    (start : Nat) (D : List Nat) (lo hi lo' hi' : Nat),
    lo' ≤ lo → hi ≤ hi' → TreeOk f g st b start D lo hi →
    TreeOk f g st b start D lo' hi' := by
  intro f
  induction f with
  | zero => intro g st b start D lo hi lo' hi' _ _ h; cases h
  | succ f ih =>
    intro g st b start D lo hi lo' hi' h1 h2 h
    cases b with
    | Direct s a e =>
      obtain ⟨hgb, hfind, ha, he, hne, hb1, hb2⟩ := h
      exact ⟨hgb, hfind, ha, he, hne, by omega, by omega⟩
    | Indirect bs =>
      exact TreeListOk_widen
        (fun b s' D' l hh l' h' hl hh' hp => ih g st b s' D' l hh l' h' hl hh' hp)
        bs start D lo hi lo' hi' h1 h2 h
    | Stored s =>
      obtain ⟨inner, mid, hgb, hfind, hne, hb1, hb2, hb3, hin⟩ := h
      exact ⟨inner, mid, hgb, hfind, hne, le_trans h1 hb1, hb2, by omega,
        ih g st inner start D lo mid lo' mid h1 (le_refl mid) hin⟩

/-- Concatenation of two chained child lists. -/
theorem TreeListOk_append {P : BlockType → Nat → List Nat → Nat → Nat → Prop}
    (hw : ∀ b s' D' l h l' h', l' ≤ l → h ≤ h' → P b s' D' l h → P b s' D' l' h') :
    ∀ (xs ys : List BlockType) (s : Nat) (D1 D2 : List Nat) (lo mid hi : Nat),
      TreeListOk P xs s D1 lo mid → TreeListOk P ys (s + D1.length) D2 mid hi →
      TreeListOk P (xs ++ ys) s (D1 ++ D2) lo hi := by
  intro xs
  induction xs with
  | nil =>
    intro ys s D1 D2 lo mid hi h1 h2
    obtain ⟨rfl, hle⟩ := h1
    simp only [List.nil_append]
    exact TreeListOk_widen hw ys _ D2 mid hi lo hi hle (le_refl hi) (by simpa using h2)
  | cons x rest ih =>
    intro ys s D1 D2 lo mid hi h1 h2
    obtain ⟨E1, E2, m1, rfl, hne, hlom, hPx, hrest⟩ := h1
    refine ⟨E1, E2 ++ D2, m1, by simp, hne, hlom, hPx, ?_⟩
    have h2' : TreeListOk P ys (s + E1.length + E2.length) D2 mid hi := by
      have he : s + (E1 ++ E2).length = s + E1.length + E2.length := by
        simp [List.length_append]
        omega
      rwa [he] at h2
    exact ih ys (s + E1.length) E2 D2 m1 mid hi hrest h2'

/-- The last child of a chained list covers the final segment, ending at
`s + D.length`. -/
theorem TreeListOk_getLast {P : BlockType → Nat → List Nat → Nat → Nat → Prop} :
    ∀ (bs : List BlockType) (s : Nat) (D : List Nat) (lo hi : Nat) (b : BlockType),
      TreeListOk P bs s D lo hi → bs.getLast? = some b →
      ∃ s' D' l' h', P b s' D' l' h' ∧ D' ≠ [] ∧ s' + D'.length = s + D.length := by
  intro bs
  induction bs with
  | nil => intro s D lo hi b _ hlast; cases hlast
  | cons x rest ih =>
    intro s D lo hi b h hlast
    obtain ⟨D1, D2, mid, rfl, hne, hlom, hPx, hrest⟩ := h
    cases hr : rest with
    | nil =>
      subst hr
      obtain ⟨rfl, _⟩ := hrest
      simp only [List.getLast?_singleton] at hlast
      obtain rfl := Option.some.inj hlast
      exact ⟨s, D1, lo, mid, hPx, hne, by simp⟩
    | cons y ys =>
      have hlast' : rest.getLast? = some b := by
        rw [hr] at hlast ⊢
        simpa [List.getLast?_cons_cons] using hlast
      obtain ⟨s', D', l', h', hPb, hne', hsum⟩ :=
        ih (s + D1.length) D2 mid hi b (hr ▸ hrest) (hr ▸ hlast')
      exact ⟨s', D', l', h', hPb, hne', by simp [List.length_append]; omega⟩

/-- With a fault-free backend, fetching an existing blob succeeds and
leaves the store unchanged. -/
theorem storedGetRaw_found (g : Global) (s : Stored) (st : Store) (v : Blob)
    (hgb : (getBucket g s.bucket).isSome = true)
    (hfind : findBlob st.blobs (s.bucket, s.descriptor) = some v)
    (hf : st.faults = []) : storedGetRaw g s st = (.ok v, st) := by
  obtain ⟨m, hm⟩ := Option.isSome_iff_exists.mp hgb
  cases st with
  | mk blobs nd faults rand del time =>
    subst hf
    simp only at hfind
    unfold storedGetRaw bucketGet takeFault
    rw [hm]
    simp [hfind]

/-- Typed fetch of a block blob. -/
theorem storedGetBlock_found (g : Global) (s : Stored) (st : Store) (inner : BlockType)
    (hgb : (getBucket g s.bucket).isSome = true)
    (hfind : findBlob st.blobs (s.bucket, s.descriptor) = some (.block inner))
    (hf : st.faults = []) : storedGetBlock g s st = (.ok inner, st) := by
  unfold storedGetBlock
  rw [storedGetRaw_found g s st (.block inner) hgb hfind hf, bindE_ok]

/-- Typed fetch of a raw-bytes blob. -/
theorem storedGetBytes_found (g : Global) (s : Stored) (st : Store) (d : List Nat)
    (hgb : (getBucket g s.bucket).isSome = true)
    (hfind : findBlob st.blobs (s.bucket, s.descriptor) = some (.bytes d))
    (hf : st.faults = []) : storedGetBytes g s st = (.ok d, st) := by
  unfold storedGetBytes
  rw [storedGetRaw_found g s st (.bytes d) hgb hfind hf, bindE_ok]

/-- A subtree satisfying the invariant reports exactly its logical
range.  (Mirrors §8 property 2 for the fault-free, unencrypted case.) -/
theorem TreeOk_rangeB : ∀ (f : Nat) (g : Global) (st : Store) (b : BlockType)
    (start : Nat) (D : List Nat) (lo hi : Nat),
    TreeOk f g st b start D lo hi → D ≠ [] → st.faults = [] →
    rangeB f g b st = (.ok (start, start + D.length), st) := by
  intro f
  induction f with
  | zero => intro g st b start D lo hi h _ _; cases h
  | succ f ih =>
    intro g st b start D lo hi h hne hf
    cases b with
    | Direct s a e =>
      obtain ⟨_, _, ha, he, _, _, _⟩ := h
      subst ha
      subst he
      exact rangeB_direct f g s a (a + D.length) st
    | Indirect bs =>
      cases bs with
      | nil =>
        obtain ⟨rfl, _⟩ := h
        exact absurd rfl hne
      | cons b0 rest =>
        obtain ⟨D1, D2, mid, hD, hne1, hlom, hP0, hrest⟩ := h
        have hfst : rangeB f g b0 st = (.ok (start, start + D1.length), st) :=
          ih g st b0 start D1 lo mid hP0 hne1 hf
        cases hlast : (b0 :: rest).getLast? with
        | none =>
          rw [List.getLast?_eq_none_iff] at hlast
          cases hlast
        | some last =>
          obtain ⟨s', D', l', h', hPl, hne', hsum⟩ :=
            TreeListOk_getLast (b0 :: rest) start D lo hi last
              ⟨D1, D2, mid, hD, hne1, hlom, hP0, hrest⟩ hlast
          have hlst : rangeB f g last st = (.ok (s', s' + D'.length), st) :=
            ih g st last s' D' l' h' hPl hne' hf
          show (match (b0 :: rest).head? with
            | none => (Except.ok (0, 0), st)
            | some first =>
              match (b0 :: rest).getLast? with
              | none => (Except.ok (0, 0), st)
              | some last =>
                bindE (rangeB f g first st) fun r1 st1 =>
                  bindE (rangeB f g last st1) fun r2 st2 =>
                    (Except.ok (r1.1, r2.2), st2)) = (.ok (start, start + D.length), st)
          simp only [List.head?_cons, hlast]
          rw [hfst, bindE_ok, hlst, bindE_ok, hsum]
    | Stored s =>
      obtain ⟨inner, mid, hgb, hfind, _, _, _, _, hin⟩ := h
      show bindE (storedGetBlock g s st)
          (fun inner st1 => rangeB f g inner st1) = (.ok (start, start + D.length), st)
      rw [storedGetBlock_found g s st inner hgb hfind hf, bindE_ok]
      exact ih g st inner start D lo mid hin hne hf

/-- Streaming a chained child list concatenates the children's chunks in
order, leaving the store unchanged. -/
theorem getSeq_TreeListOk (f : Nat) (g : Global) (st : Store)
    (hch : ∀ (b : BlockType) (start : Nat) (D : List Nat) (lo hi : Nat),
      TreeOk f g st b start D lo hi →
      ∃ cs, getB f g b st = (.ok cs, st) ∧ cs.flatten = D) :
    ∀ (bs : List BlockType) (start : Nat) (D : List Nat) (lo hi : Nat),
      TreeListOk (fun b s' D' l h => TreeOk f g st b s' D' l h) bs start D lo hi →
      ∃ cs, getSeq (fun b st' => getB f g b st') bs st = (.ok cs, st) ∧ cs.flatten = D := by
  intro bs
  induction bs with
  | nil =>
    intro start D lo hi h
    exact ⟨[], rfl, h.1.symm⟩
  | cons b rest ih =>
    intro start D lo hi h
    obtain ⟨D1, D2, mid, rfl, hne, hlom, hPb, hrest⟩ := h
    obtain ⟨cs1, hcs1, hfl1⟩ := hch b start D1 lo mid hPb
    obtain ⟨cs2, hcs2, hfl2⟩ := ih (start + D1.length) D2 mid hi hrest
    refine ⟨cs1 ++ cs2, ?_, by simp [hfl1, hfl2]⟩
    show bindE (getB f g b st) (fun cs1 st1 =>
      bindE (getSeq (fun b st' => getB f g b st') rest st1) fun cs2 st2 =>
        (.ok (cs1 ++ cs2), st2)) = (.ok (cs1 ++ cs2), st)
    rw [hcs1, bindE_ok, hcs2, bindE_ok]

/-- A subtree satisfying the invariant streams back exactly its byte
segment, leaving the store unchanged. -/
theorem TreeOk_getB : ∀ (f : Nat) (g : Global) (st : Store) (b : BlockType)
    (start : Nat) (D : List Nat) (lo hi : Nat),
    TreeOk f g st b start D lo hi → st.faults = [] →
    ∃ cs, getB f g b st = (.ok cs, st) ∧ cs.flatten = D := by
  intro f
  induction f with
  | zero => intro g st b start D lo hi h _; cases h
  | succ f ih =>
    intro g st b start D lo hi h hf
    cases b with
    | Direct s a e =>
      obtain ⟨hgb, hfind, _, _, _, _, _⟩ := h
      refine ⟨[D], ?_, by simp⟩
      show bindE (storedGetBytes g s st) (fun d st1 => (.ok [d], st1)) = (.ok [D], st)
      rw [storedGetBytes_found g s st D hgb hfind hf, bindE_ok]
    | Indirect bs =>
      exact getSeq_TreeListOk f g st
        (fun b start D lo hi hb => ih g st b start D lo hi hb hf)
        bs start D lo hi h
    | Stored s =>
      obtain ⟨inner, mid, hgb, hfind, _, _, _, _, hin⟩ := h
      obtain ⟨cs, hcs, hfl⟩ := ih g st inner start D lo mid hin hf
      refine ⟨cs, ?_, hfl⟩
      show bindE (storedGetBlock g s st) (fun inner st1 => getB f g inner st1) = (.ok cs, st)
      rw [storedGetBlock_found g s st inner hgb hfind hf, bindE_ok]
      exact hcs

/-- Taking `min n (length l)` elements is the same as taking `n`. -/
theorem take_min {α : Type} (l : List α) (n : Nat) : l.take (min n l.length) = l.take n := by
  rcases le_total n l.length with h | h
  · rw [min_eq_left h]
  · rw [min_eq_right h, List.take_length, List.take_of_length_le h]

/-- Correctness of the child-creation loop of `IndirectBlock::create`:
on success it appends freshly created Direct children that cover exactly
the consumed byte segment, using only fresh descriptors, and leaves every
key outside the consumed descriptor interval untouched. -/
theorem createLoop_ok_TreeOk (f : Nat) (g : Global) (hnd : BucketsNodup g) :
    ∀ (slots : Nat) (data : List Nat) (off start : Nat) (acc : List BlockType)
      (st : Store) (res : List BlockType × Nat) (st' : Store),
      createLoop f g slots data off start acc st = (.ok res, st') →
      off ≤ start → start ≤ off + data.length →
      ∃ new, res.1 = acc ++ new ∧
        start ≤ res.2 ∧ res.2 ≤ off + data.length ∧
        st.nextDesc ≤ st'.nextDesc ∧
        (∀ lvl, TreeListOk
          (fun b s' D' l h => TreeOk (lvl + 1) g st' b s' D' l h)
          new start ((data.drop (start - off)).take (res.2 - start))
          st.nextDesc st'.nextDesc) ∧
        (∀ (name : BucketName) (d : Descriptor),
          (dnum d < st.nextDesc ∨ st'.nextDesc ≤ dnum d) →
          findBlob st'.blobs (name, d) = findBlob st.blobs (name, d)) ∧
        (st.faults = [] → st'.faults = []) := by
  intro slots
  induction slots with
  | zero =>
    intro data off start acc st res st' h hos hsl
    simp only [createLoop, Prod.mk.injEq] at h
    obtain ⟨h1, rfl⟩ := h
    obtain rfl : (acc, start) = res := Except.ok.inj h1
    exact ⟨[], by simp, le_refl _, hsl, le_refl _,
      fun lvl => ⟨by simp, le_refl _⟩, fun _ _ _ => rfl, fun hh => hh⟩
  | succ slots ih =>
    intro data off start acc st res st' h hos hsl
    by_cases hlt : start < off + data.length
    · simp only [createLoop, hlt, if_true] at h
      split at h
      case _ err st1 heq => simp at h
      case _ b st1 hdc =>
        split at h
        case _ m2 st2 heq2 =>
          rcases hds : deleteSeq (fun b' st'' => deleteB f g b' st'') acc st2 with ⟨rds, st3⟩
          rw [hds] at h
          cases rds with
          | error e2 => simp [bindE] at h
          | ok ms => simp [bindE] at h
        case _ err st2 hne2 hne3 heq2 => simp at h
        case _ r st2 heq2 =>
          obtain ⟨name, hnb, hned, hbform, hst1⟩ :=
            directCreate_ok g (data.drop (start - off)) start st b st1 hdc
          obtain ⟨m, hmem, hm1, _⟩ := next_bucket_some g 1 [] (st.rand.head?.getD 0) name hnb
          have hgbm : getBucket g name = some m := getBucket_of_mem_nodup g name m hnd hmem
          rw [hgbm] at hbform hst1
          simp only [Option.getD_some] at hbform hst1
          set dropped := data.drop (start - off) with hdropped
          set absorbed := dropped.take m with habs
          set A := absorbed.length with hA
          have hdroplen : dropped.length = data.length - (start - off) := by
            simp [hdropped]
          have hAmin : A = min m dropped.length := by
            simp [hA, habs]
          have hA1 : 1 ≤ A := by
            have hdl : 1 ≤ dropped.length := by
              rw [hdroplen]
              omega
            omega
          have hAub : A ≤ dropped.length := by omega
          subst hbform
          cases f with
          | zero => rw [show rangeB 0 g (BlockType.Direct ⟨name, [st.nextDesc]⟩ start
              (start + A)) st1 = (.error .fuel, st1) from rfl] at heq2
                    cases heq2
          | succ fm =>
            rw [rangeB_direct] at heq2
            rw [Prod.mk.injEq] at heq2
            obtain ⟨hr, rfl⟩ := heq2
            have hr' : r = (start, start + A) := (Except.ok.inj hr).symm
            subst hr'
            obtain ⟨new', hres1, hs1, hs2, hnd1, htl, hfr, hfl⟩ :=
              ih data off (start + A)
                (acc ++ [BlockType.Direct ⟨name, [st.nextDesc]⟩ start (start + A)]) st1
                res st' h (by omega) (by rw [hdroplen] at hAub; omega)
            have hst1nd : st1.nextDesc = st.nextDesc + 1 := by rw [hst1]
            refine ⟨BlockType.Direct ⟨name, [st.nextDesc]⟩ start (start + A) :: new',
              by rw [hres1, List.append_assoc]; rfl, by omega, hs2, by omega, ?_, ?_, ?_⟩
            · intro lvl
              refine ⟨absorbed, (data.drop ((start + A) - off)).take (res.2 - (start + A)),
                st1.nextDesc, ?_, ?_, by omega, ?_, ?_⟩
              · have hsplit : res.2 - start = A + (res.2 - (start + A)) := by omega
                have hta : dropped.take A = absorbed := by
                  rw [hAmin, take_min, habs]
                rw [hsplit, List.take_add, hta]
                congr 1
                rw [hdropped, List.drop_drop]
                congr 2
                omega
              · intro he
                rw [hA, he] at hA1
                simp at hA1
              · show TreeOk (lvl + 1) g st' (BlockType.Direct ⟨name, [st.nextDesc]⟩ start
                  (start + A)) start absorbed st.nextDesc st1.nextDesc
                refine ⟨by simp [hgbm], ?_, rfl, by rw [hA], ?_, ?_, ?_⟩
                · have hfind1 : findBlob st1.blobs (name, [st.nextDesc])
                      = some (.bytes absorbed) := by
                    rw [hst1]
                    exact findBlob_setBlob_same st.blobs (name, [st.nextDesc]) (.bytes absorbed)
                  rw [← hfind1]
                  exact hfr name [st.nextDesc] (by simp [dnum, hst1nd])
                · intro he
                  rw [hA, he] at hA1
                  simp at hA1
                · simp [dnum]
                · simp [dnum, hst1nd]
              · have := htl lvl
                rwa [hst1nd] at this ⊢
            · intro name2 d hd
              have h1 : findBlob st'.blobs (name2, d) = findBlob st1.blobs (name2, d) :=
                hfr name2 d (by omega)
              have h2 : findBlob st1.blobs (name2, d) = findBlob st.blobs (name2, d) := by
                rw [hst1]
                refine findBlob_setBlob_other st.blobs (name, [st.nextDesc]) (name2, d)
                  (.bytes absorbed) ?_
                intro he
                rw [Prod.mk.injEq] at he
                have : dnum d = st.nextDesc := by rw [he.2]; rfl
                omega
              exact h1.trans h2
            · intro hnil
              refine hfl ?_
              rw [hst1, hnil]
              rfl
    · simp only [createLoop, hlt, if_false, Prod.mk.injEq] at h
      obtain ⟨h1, rfl⟩ := h
      obtain rfl : (acc, start) = res := Except.ok.inj h1
      exact ⟨[], by simp, le_refl _, hsl, le_refl _,
        fun lvl => ⟨by simp, le_refl _⟩, fun _ _ _ => rfl, fun hh => hh⟩

/-- Correctness of `IndirectBlock::create` / `StoredBlock::create`: a
successful create builds a subtree that faithfully represents its input
bytes, using only freshly reserved descriptors, while every pre-existing
key outside the fresh interval is untouched and a fault-free backend
stays fault-free. -/
theorem createMutual_ok_TreeOk (f : Nat) : ∀ (tag : Bool) (g : Global) (data : List Nat)
    (start : Nat) (st : Store) (b : BlockType) (st' : Store),
    BucketsNodup g → (tag = true → data ≠ []) →
    createMutual f tag g data start st = (.ok b, st') →
    TreeOk (f + 1) g st' b start data st.nextDesc st'.nextDesc ∧
    st.nextDesc ≤ st'.nextDesc ∧
    (∀ (name : BucketName) (d : Descriptor),
      (dnum d < st.nextDesc ∨ st'.nextDesc ≤ dnum d) →
      findBlob st'.blobs (name, d) = findBlob st.blobs (name, d)) ∧
    (st.faults = [] → st'.faults = []) := by
  induction f with
  | zero =>
    intro tag g data start st b st' _ _ h
    cases tag <;> simp [createMutual] at h
  | succ f ih =>
    intro tag g data start st b st' hnd htag h
    cases tag with
    | false =>
      simp only [createMutual] at h
      split at h
      case _ err st1 heq => simp at h
      case _ blocks start' st1 heq =>
        obtain ⟨new, hres1, hs1, hs2, hndm, htl, hfr, hfl⟩ :=
          createLoop_ok_TreeOk f g hnd g.direct_block_count data start start [] st
            (blocks, start') st1 heq (le_refl start) (by omega)
        simp only at hres1 hs1 hs2
        simp only [List.nil_append] at hres1
        subst hres1
        rw [Nat.sub_self, List.drop_zero] at htl
        by_cases hlt : start' < start + data.length
        · rw [if_pos hlt] at h
          split at h
          case _ err st2 heqT => simp at h
          case _ bT st2 heqT =>
            have hdne : data.drop (start' - start) ≠ [] := by
              intro he
              rw [List.drop_eq_nil_iff] at he
              omega
            obtain ⟨htT, hndT, hfrT, hflT⟩ :=
              ih true g (data.drop (start' - start)) start' st1 bT st2 hnd
                (fun _ => hdne) heqT
            simp only [Prod.mk.injEq] at h
            obtain ⟨hb, rfl⟩ := h
            obtain rfl : BlockType.Indirect (blocks ++ [bT]) = b := Except.ok.inj hb
            have hseglen : (data.take (start' - start)).length = start' - start := by
              simp
              omega
            refine ⟨?_, by omega, ?_, fun hnil => hflT (hfl hnil)⟩
            · show TreeListOk (fun b s' D' l hh => TreeOk (f + 1) g st2 b s' D' l hh)
                (blocks ++ [bT]) start data st.nextDesc st2.nextDesc
              have hxs : TreeListOk (fun b s' D' l hh => TreeOk (f + 1) g st2 b s' D' l hh)
                  blocks start (data.take (start' - start)) st.nextDesc st1.nextDesc := by
                refine TreeListOk_mono_within st.nextDesc st1.nextDesc
                  (fun b s' D' l hh hp => TreeOk_le (f + 1) g st1 b s' D' l hh hp)
                  (fun b s' D' l hh hl hh2 hp =>
                    TreeOk_frame (f + 1) g st1 st2 b s' D' l hh hp
                      (fun name d hd1 hd2 =>
                        hfrT name d (Or.inl (by omega))))
                  blocks start _ st.nextDesc st1.nextDesc (le_refl _) (le_refl _) (htl f)
              have hys : TreeListOk (fun b s' D' l hh => TreeOk (f + 1) g st2 b s' D' l hh)
                  [bT] (start + (data.take (start' - start)).length)
                  (data.drop (start' - start)) st1.nextDesc st2.nextDesc := by
                rw [hseglen]
                have hstart' : start + (start' - start) = start' := by omega
                rw [hstart']
                exact ⟨data.drop (start' - start), [], st2.nextDesc, by simp, hdne,
                  hndT, htT, rfl, le_refl _⟩
              have := TreeListOk_append
                (fun b s' D' l hh l' h' hl hh' hp =>
                  TreeOk_widen (f + 1) g st2 b s' D' l hh l' h' hl hh' hp)
                blocks [bT] start (data.take (start' - start)) (data.drop (start' - start))
                st.nextDesc st1.nextDesc st2.nextDesc hxs hys
              rwa [List.take_append_drop] at this
            · intro name d hd
              have h1 : findBlob st2.blobs (name, d) = findBlob st1.blobs (name, d) :=
                hfrT name d (by omega)
              have h2 : findBlob st1.blobs (name, d) = findBlob st.blobs (name, d) :=
                hfr name d (by omega)
              exact h1.trans h2
        · rw [if_neg hlt] at h
          simp only [Prod.mk.injEq] at h
          obtain ⟨hb, rfl⟩ := h
          obtain rfl : BlockType.Indirect blocks = b := Except.ok.inj hb
          have hstart' : start' = start + data.length := by omega
          refine ⟨?_, hndm, hfr, hfl⟩
          show TreeListOk (fun b s' D' l hh => TreeOk (f + 1) g st1 b s' D' l hh)
            blocks start data st.nextDesc st1.nextDesc
          have := htl f
          rw [hstart'] at this
          rw [Nat.add_sub_cancel_left] at this
          rwa [List.take_length] at this
    | true =>
      simp only [createMutual] at h
      split at h
      case _ err st1 heq => simp at h
      case _ inner st1 heqI =>
        obtain ⟨htI, hndI, hfrI, hflI⟩ :=
          ih false g data start st inner st1 hnd (by simp) heqI
        rcases hsc : storedCreate g (.block inner) st1 with ⟨rs, st2⟩
        rw [hsc] at h
        cases rs with
        | error err => simp [bindE] at h
        | ok s =>
          simp only [bindE, Prod.mk.injEq] at h
          obtain ⟨hb, rfl⟩ := h
          obtain rfl : BlockType.Stored s = b := Except.ok.inj hb
          obtain ⟨hnbS, hgbS, hdescS, hst2⟩ :=
            storedCreate_ok g (.block inner) st1 s st2 hsc
          have hst2nd : st2.nextDesc = st1.nextDesc + 1 := by rw [hst2]
          refine ⟨?_, by omega, ?_, ?_⟩
          · refine ⟨inner, st1.nextDesc, hgbS, ?_, htag rfl, hndI, ?_, ?_, ?_⟩
            · rw [hst2, hdescS]
              exact findBlob_setBlob_same st1.blobs (s.bucket, [st1.nextDesc]) (.block inner)
            · rw [hdescS]
              exact le_refl _
            · rw [hdescS]
              show st1.nextDesc < st2.nextDesc
              omega
            · refine TreeOk_frame (f + 1) g st1 st2 inner start data st.nextDesc
                st1.nextDesc htI ?_
              intro name d hd1 hd2
              rw [hst2]
              refine findBlob_setBlob_other st1.blobs (s.bucket, [st1.nextDesc]) (name, d)
                (.block inner) ?_
              intro he
              rw [Prod.mk.injEq] at he
              have : dnum d = st1.nextDesc := by rw [he.2]; rfl
              omega
          · intro name d hd
            have h1 : findBlob st2.blobs (name, d) = findBlob st1.blobs (name, d) := by
              rw [hst2]
              refine findBlob_setBlob_other st1.blobs (s.bucket, [st1.nextDesc]) (name, d)
                (.block inner) ?_
              intro he
              rw [Prod.mk.injEq] at he
              have : dnum d = st1.nextDesc := by rw [he.2]; rfl
              omega
            have h2 : findBlob st1.blobs (name, d) = findBlob st.blobs (name, d) :=
              hfrI name d (by omega)
            exact h1.trans h2
          · intro hnil
            rw [hst2]
            have : st1.faults = [] := hflI hnil
            rw [this]
            rfl

/-- With the bucket registered and a fault-free backend, `Stored::put`
succeeds and overwrites exactly its own key. -/
theorem storedPut_found (g : Global) (s : Stored) (v : Blob) (st : Store)
    (hgb : (getBucket g s.bucket).isSome = true) (hf : st.faults = []) :
    storedPut g s v st =
      (.ok (), { st with blobs := setBlob st.blobs (s.bucket, s.descriptor) v }) := by
  obtain ⟨m, hm⟩ := Option.isSome_iff_exists.mp hgb
  cases st with
  | mk blobs nd faults rand del time =>
    simp only at hf
    subst hf
    unfold storedPut bucketPut takeFault
    rw [hm]
    simp

/-- The appending loop of `IndirectBlock::put` exits immediately when the
cursor already sits at the put range's end. -/
theorem putAppendLoop_done (f : Nat) (g : Global) (slots : Nat) (data : List Nat)
    (so rend : Nat) (acc : List BlockType) (st : Store) :
    putAppendLoop f g slots data so rend rend acc st = (.ok (acc, rend), st) := by
  cases slots with
  | zero => rfl
  | succ n => simp [putAppendLoop]

/-- Unfolding equation of the child-update loop on a non-empty list. -/
theorem putLoop_cons (rangeRec : BlockType → Store → MRes (Nat × Nat))
    (putRec : BlockType → List Nat → Nat × Nat → Store → MRes BlockType)
    (so s0 : Nat) (data : List Nat) (b : BlockType) (bs : List BlockType) (st : Store) :
    putLoop rangeRec putRec so s0 data (b :: bs) st =
      (match rangeRec b st with
       | (.error err, st1) => (.error err, st1)
       | (.ok (bs_, be), st1) =>
         if be ≤ s0 then (.ok (b :: bs), st1)
         else
           match putRec b ((data.drop (bs_ - so)).take (be - bs_)) (bs_, be) st1 with
           | (.error err, st2) => (.error err, st2)
           | (.ok b2, st2) =>
             bindE (putLoop rangeRec putRec so s0 data bs st2) fun bs2 st3 =>
               (.ok (b2 :: bs2), st3)) := rfl

/-- The child-update loop of `IndirectBlock::put`, on a chained child list
whose segments all start at or after the put range's start, never hits the
break, updates every child in order with the matching slice of the new
bytes, and preserves the invariant for the sliced new segment. -/
theorem putLoop_TreeListOk (f : Nat) (g : Global)
    (hch : ∀ (st : Store) (b : BlockType) (start : Nat) (D D' : List Nat) (lo hi : Nat),
      TreeOk f g st b start D lo hi → D'.length = D.length → st.faults = [] →
      ∃ b' st', putB f g b D' (start, start + D.length) st = (.ok b', st') ∧
        TreeOk f g st' b' start D' lo hi ∧
        st'.nextDesc = st.nextDesc ∧ st'.faults = [] ∧ st'.deleted = st.deleted ∧
        (∀ (name : BucketName) (d : Descriptor), (dnum d < lo ∨ hi ≤ dnum d) →
          findBlob st'.blobs (name, d) = findBlob st.blobs (name, d))) :
    ∀ (bs : List BlockType) (st : Store) (rootStart pos : Nat) (D DF : List Nat)
      (lo hi : Nat),
      TreeListOk (fun b s' E l h => TreeOk f g st b s' E l h) bs pos D lo hi →
      st.faults = [] → rootStart ≤ pos → pos - rootStart + D.length ≤ DF.length →
      ∃ bs' st',
        putLoop (rangeB f g) (fun b d rr st0 => putB f g b d rr st0)
          rootStart rootStart DF bs st = (.ok bs', st') ∧
        TreeListOk (fun b s' E l h => TreeOk f g st' b s' E l h) bs' pos
          ((DF.drop (pos - rootStart)).take D.length) lo hi ∧
        st'.nextDesc = st.nextDesc ∧ st'.faults = [] ∧ st'.deleted = st.deleted ∧
        (∀ (name : BucketName) (d : Descriptor), (dnum d < lo ∨ hi ≤ dnum d) →
          findBlob st'.blobs (name, d) = findBlob st.blobs (name, d)) := by
  intro bs
  induction bs with
  | nil =>
    intro st rootStart pos D DF lo hi h hf hrp hlen
    obtain ⟨rfl, hle⟩ := h
    exact ⟨[], st, rfl, ⟨by simp, hle⟩, rfl, hf, rfl, fun _ _ _ => rfl⟩
  | cons b rest ih =>
    intro st rootStart pos D DF lo hi h hf hrp hlen
    obtain ⟨D1, D2, mid, rfl, hne1, hlom, hPb, hrest⟩ := h
    have hmidhi : mid ≤ hi :=
      TreeListOk_le (fun b s' E l hh hp => TreeOk_le f g st b s' E l hh hp)
        rest _ _ _ _ hrest
    have hrg : rangeB f g b st = (.ok (pos, pos + D1.length), st) :=
      TreeOk_rangeB f g st b pos D1 lo mid hPb hne1 hf
    have hD1pos : 0 < D1.length := List.length_pos.mpr hne1
    have hlen1 : pos - rootStart + D1.length + D2.length ≤ DF.length := by
      rw [List.length_append] at hlen
      omega
    have hslicelen : ((DF.drop (pos - rootStart)).take D1.length).length = D1.length := by
      rw [List.length_take, List.length_drop]
      omega
    obtain ⟨b', st1, hput, hTb', hnd1, hf1, hdel1, hfr1⟩ :=
      hch st b pos D1 ((DF.drop (pos - rootStart)).take D1.length) lo mid hPb hslicelen hf
    have hrest1 : TreeListOk (fun b s' E l h => TreeOk f g st1 b s' E l h)
        rest (pos + D1.length) D2 mid hi :=
      TreeListOk_mono_within mid hi
        (fun b s' E l hh hp => TreeOk_le f g st b s' E l hh hp)
        (fun b s' E l hh hl hh2 hp =>
          TreeOk_frame f g st st1 b s' E l hh hp
            (fun name d hd1 hd2 => hfr1 name d (Or.inr (by omega))))
        rest _ _ mid hi (le_refl _) (le_refl _) hrest
    obtain ⟨bs'', st2, hloop2, hTL2, hnd2, hf2, hdel2, hfr2⟩ :=
      ih st1 rootStart (pos + D1.length) D2 DF mid hi hrest1 hf1 (by omega) (by omega)
    have hTb2 : TreeOk f g st2 b' pos ((DF.drop (pos - rootStart)).take D1.length) lo mid :=
      TreeOk_frame f g st1 st2 b' pos _ lo mid hTb'
        (fun name d hd1 hd2 => hfr2 name d (Or.inl (by omega)))
    refine ⟨b' :: bs'', st2, ?_, ?_, hnd2.trans hnd1, hf2, hdel2.trans hdel1, ?_⟩
    · rw [putLoop_cons]
      simp only [hrg]
      rw [if_neg (by omega : ¬ pos + D1.length ≤ rootStart)]
      rw [Nat.add_sub_cancel_left]
      simp only [hput]
      rw [hloop2, bindE_ok]
    · refine ⟨(DF.drop (pos - rootStart)).take D1.length,
        (DF.drop (pos + D1.length - rootStart)).take D2.length, mid, ?_, ?_, hlom,
        hTb2, ?_⟩
      · rw [List.length_append, List.take_add]
        congr 1
        rw [List.drop_drop]
        congr 2
        omega
      · intro hemp
        rw [hemp] at hslicelen
        simp at hslicelen
        omega
      · rw [hslicelen]
        exact hTL2
    · intro name d hd
      have h2 : findBlob st2.blobs (name, d) = findBlob st1.blobs (name, d) :=
        hfr2 name d (by omega)
      have h1 : findBlob st1.blobs (name, d) = findBlob st.blobs (name, d) :=
        hfr1 name d (by omega)
      exact h2.trans h1

/-- Equal-length overwrite preserves the representation invariant: a
`put` of new bytes over a subtree's exact range succeeds on a fault-free
backend, the updated subtree represents the new bytes, and the operation
issues no new descriptors, requests no deletions, and touches no key
outside the subtree's descriptor interval. -/
theorem putB_TreeOk : ∀ (f : Nat) (g : Global) (st : Store) (b : BlockType)
    (start : Nat) (D D' : List Nat) (lo hi : Nat),
    TreeOk f g st b start D lo hi → D'.length = D.length → st.faults = [] →
    ∃ b' st', putB f g b D' (start, start + D.length) st = (.ok b', st') ∧
      TreeOk f g st' b' start D' lo hi ∧
      st'.nextDesc = st.nextDesc ∧ st'.faults = [] ∧ st'.deleted = st.deleted ∧
      (∀ (name : BucketName) (d : Descriptor), (dnum d < lo ∨ hi ≤ dnum d) →
        findBlob st'.blobs (name, d) = findBlob st.blobs (name, d)) := by
  intro f
  induction f with
  | zero => intro g st b start D D' lo hi h _ _; cases h
  | succ f ih =>
    intro g st b start D D' lo hi h hlen hf
    cases b with
    | Direct s a e =>
      obtain ⟨hgb, hfind, ha, he, hne, hb1, hb2⟩ := h
      rw [ha, he]
      have hne' : D' ≠ [] := by
        intro h0
        rw [h0] at hlen
        simp at hlen
        exact hne (List.length_eq_zero.mp hlen.symm)
      refine ⟨.Direct s start (start + D.length),
        { st with blobs := setBlob st.blobs (s.bucket, s.descriptor) (.bytes D') },
        ?_, ?_, rfl, hf, rfl, ?_⟩
      · show (if ((start, start + D.length) : Nat × Nat) = (start, start + D.length) then
            bindE (storedPut g s (Blob.bytes D') st) fun _ st1 =>
              (Except.ok (BlockType.Direct s start (start + D.length)), st1)
          else (Except.error (Err.e "Invalid range"), st)) = _
        rw [if_pos rfl, storedPut_found g s (.bytes D') st hgb hf, bindE_ok]
      · exact ⟨hgb,
          findBlob_setBlob_same st.blobs (s.bucket, s.descriptor) (.bytes D'), rfl,
          by rw [hlen], hne', hb1, hb2⟩
      · intro name d hd
        refine findBlob_setBlob_other st.blobs (s.bucket, s.descriptor) (name, d)
          (.bytes D') ?_
        intro he2
        rw [Prod.mk.injEq] at he2
        have : dnum d = dnum s.descriptor := by rw [he2.2]
        omega
    | Indirect bs =>
      have hlistok : TreeListOk (fun b s' E l hh => TreeOk f g st b s' E l hh)
          bs start D lo hi := h
      obtain ⟨bs1, st1, hloop, hTL1, hnd1, hf1, hdel1, hfr1⟩ :=
        putLoop_TreeListOk f g
          (fun st0 b0 s0 E E' l hh hb hlen0 hf0 => ih g st0 b0 s0 E E' l hh hb hlen0 hf0)
          bs st start start D D' lo hi hlistok hf (le_refl _) (by omega)
      have hseg : (D'.drop (start - start)).take D.length = D' := by
        rw [Nat.sub_self, List.drop_zero, ← hlen, List.take_length]
      rw [hseg] at hTL1
      cases bs1 with
      | nil =>
        obtain ⟨hD', hlohi⟩ := hTL1
        have hD0 : D.length = 0 := by rw [← hlen, hD']; rfl
        refine ⟨.Indirect [], st1, ?_, ?_, hnd1, hf1, hdel1, hfr1⟩
        · show (match putLoop (rangeB f g) (fun b d rr st' => putB f g b d rr st')
              start start D' bs st with
            | (.error err, st1) => (Except.error err, st1)
            | (.ok bs1, st1) =>
              let cont : Nat → Store → MRes BlockType := fun start2 st' =>
                match putAppendLoop f g (g.direct_block_count - bs1.length) D' start
                    (start + D.length) start2 bs1 st' with
                | (.error err, st2) => (.error err, st2)
                | (.ok (bs2, start2'), st2) =>
                  if start2' < start + D.length then
                    match storedBlockCreate f g (D'.drop (start2' - start)) start2' st2 with
                    | (.error err, st3) => (.error err, st3)
                    | (.ok b, st3) => (.ok (.Indirect (bs2 ++ [b])), st3)
                  else (.ok (.Indirect bs2), st2)
              match bs1.getLast? with
              | none => cont start st1
              | some lastB =>
                match rangeB f g lastB st1 with
                | (.error err, st2) => (Except.error err, st2)
                | (.ok lr, st2) => cont lr.2 st2) =
            (Except.ok (BlockType.Indirect []), st1)
          simp only [hloop]
          have hrend : start + D.length = start := by omega
          rw [hrend]
          simp only [List.length_nil, List.getLast?_nil, putAppendLoop_done]
          rw [if_neg (lt_irrefl start)]
        · exact ⟨hD', hlohi⟩
      | cons c cs =>
        cases hlast : (c :: cs).getLast? with
        | none =>
          rw [List.getLast?_eq_none_iff] at hlast
          cases hlast
        | some lastB =>
          obtain ⟨s', D'', l', h', hPl, hne'', hsum⟩ :=
            TreeListOk_getLast (c :: cs) start D' lo hi lastB hTL1 hlast
          have hrgL : rangeB f g lastB st1 = (.ok (s', s' + D''.length), st1) :=
            TreeOk_rangeB f g st1 lastB s' D'' l' h' hPl hne'' hf1
          have hr2 : s' + D''.length = start + D.length := by omega
          refine ⟨.Indirect (c :: cs), st1, ?_, hTL1, hnd1, hf1, hdel1, hfr1⟩
          show (match putLoop (rangeB f g) (fun b d rr st' => putB f g b d rr st')
              start start D' bs st with
            | (.error err, st1) => (Except.error err, st1)
            | (.ok bs1, st1) =>
              let cont : Nat → Store → MRes BlockType := fun start2 st' =>
                match putAppendLoop f g (g.direct_block_count - bs1.length) D' start
                    (start + D.length) start2 bs1 st' with
                | (.error err, st2) => (.error err, st2)
                | (.ok (bs2, start2'), st2) =>
                  if start2' < start + D.length then
                    match storedBlockCreate f g (D'.drop (start2' - start)) start2' st2 with
                    | (.error err, st3) => (.error err, st3)
                    | (.ok b, st3) => (.ok (.Indirect (bs2 ++ [b])), st3)
                  else (.ok (.Indirect bs2), st2)
              match bs1.getLast? with
              | none => cont start st1
              | some lastB =>
                match rangeB f g lastB st1 with
                | (.error err, st2) => (Except.error err, st2)
                | (.ok lr, st2) => cont lr.2 st2) =
            (Except.ok (BlockType.Indirect (c :: cs)), st1)
          simp only [hloop, hlast, hrgL]
          rw [hr2]
          simp only [putAppendLoop_done]
          rw [if_neg (lt_irrefl (start + D.length))]
    | Stored s =>
      obtain ⟨inner, mid, hgb, hfind, hDne, hlomid, hmd, hdh, hin⟩ := h
      obtain ⟨inner', st2, hput, hTin', hnd2, hf2, hdel2, hfr2⟩ :=
        ih g st inner start D D' lo mid hin hlen hf
      have hget : storedGetBlock g s st = (.ok inner, st) :=
        storedGetBlock_found g s st inner hgb hfind hf
      have hsp := storedPut_found g s (.block inner') st2 hgb hf2
      have hne' : D' ≠ [] := by
        intro h0
        rw [h0] at hlen
        simp at hlen
        exact hDne (List.length_eq_zero.mp hlen.symm)
      refine ⟨.Stored s, { st2 with blobs := setBlob st2.blobs (s.bucket, s.descriptor) (.block inner') }, ?_, ?_, hnd2, hf2, hdel2, ?_⟩
      · show (match storedGetBlock g s st with
          | (.error err, st1) => (Except.error err, st1)
          | (.ok inner, st1) =>
            (match putB f g inner D' (start, start + D.length) st1 with
            | (.error err, st2) => (Except.error err, st2)
            | (.ok inner', st2) =>
              bindE (storedPut g s (Blob.block inner') st2) fun _ st3 =>
                (Except.ok (BlockType.Stored s), st3) : MRes BlockType)) = _
        simp only [hget, hput]
        rw [hsp, bindE_ok]
      · refine ⟨inner', mid, hgb,
          findBlob_setBlob_same st2.blobs (s.bucket, s.descriptor) (.block inner'),
          hne', hlomid, hmd, hdh, ?_⟩
        refine TreeOk_frame f g st2
          { st2 with blobs := setBlob st2.blobs (s.bucket, s.descriptor) (.block inner') }
          inner' start D' lo mid hTin' ?_
        intro name d hd1 hd2
        refine findBlob_setBlob_other st2.blobs (s.bucket, s.descriptor) (name, d)
          (.block inner') ?_
        intro he2
        rw [Prod.mk.injEq] at he2
        have : dnum d = dnum s.descriptor := by rw [he2.2]
        omega
      · intro name d hd
        have h3 : findBlob (setBlob st2.blobs (s.bucket, s.descriptor) (.block inner'))
            (name, d) = findBlob st2.blobs (name, d) := by
          refine findBlob_setBlob_other st2.blobs (s.bucket, s.descriptor) (name, d)
            (.block inner') ?_
          intro he2
          rw [Prod.mk.injEq] at he2
          have : dnum d = dnum s.descriptor := by rw [he2.2]
          omega
        have h4 : findBlob st2.blobs (name, d) = findBlob st.blobs (name, d) :=
          hfr2 name d (by omega)
        exact h3.trans h4

/-- The store after the concrete three-byte create of the C1/C3
witnesses: one Direct child blob in bucket `[97]` under the first fresh
descriptor. -/
def c13StoreAfter : Store :=
  { blobs := [(([97], [0]), .bytes [1, 2, 3])], nextDesc := 1, faults := [],
    rand := [], deleted := [], time := 0 }

/-- The block built by the concrete create of the C1/C3 witnesses. -/
def c13Block : BlockType := .Indirect [.Direct ⟨[97], [0]⟩ 0 3]

/-- Concrete evaluation of the three-byte create over the two-bucket
registry, shared by the C1 and C3 witnesses. -/
theorem create_eval_c13 :
    createIndirect 2 wGlobal [1, 2, 3] 0 c4Store = (.ok c13Block, c13StoreAfter) := by
  have h1 : createLoop 1 wGlobal 10 [1, 2, 3] 0 0 [] c4Store =
      (.ok ([.Direct ⟨[97], [0]⟩ 0 3], 3), c13StoreAfter) := rfl
  rw [createIndirect_succ]
  rw [show wGlobal.direct_block_count = 10 from rfl]
  rw [h1]
  rfl

/-- **C1** (amended): the round-trip law holds for every creation that
*succeeds* — on a fault-free backend with distinct bucket names, a
successful `BlockType::create(D, 0)` yields a block whose full `get`
stream concatenates back to exactly `D`.  (The unconditional success of
`create` claimed by the spec is refuted by `claim_c1_counterexample`:
a bucket of effective `max_size ≥ 1` suffices for every Direct leaf but
not for the serialized interior `StoredBlock` tail.) -/
theorem claim_c1_roundtrip (f : Nat) (g : Global) (data : List Nat) (st st' : Store)
    (b : BlockType) (hnd : BucketsNodup g) (hf : st.faults = [])
    (hcr : createIndirect f g data 0 st = (.ok b, st')) :
    ∃ cs, getB (f + 1) g b st' = (.ok cs, st') ∧ cs.flatten = data := by
  obtain ⟨hT, _, _, hfl⟩ :=
    createMutual_ok_TreeOk f false g data 0 st b st' hnd (by simp) hcr
  exact TreeOk_getB (f + 1) g st' b 0 data st.nextDesc st'.nextDesc hT (hfl hf)

theorem claim_c1_witness :
    BucketsNodup wGlobal ∧ c4Store.faults = [] ∧
    createIndirect 2 wGlobal [1, 2, 3] 0 c4Store = (.ok c13Block, c13StoreAfter) ∧
    ∃ cs, getB 3 wGlobal c13Block c13StoreAfter = (.ok cs, c13StoreAfter) ∧
      cs.flatten = [1, 2, 3] :=
  ⟨by unfold BucketsNodup; decide, rfl, create_eval_c13,
    claim_c1_roundtrip 2 wGlobal [1, 2, 3] c4Store c13StoreAfter c13Block
      (by unfold BucketsNodup; decide) rfl create_eval_c13⟩

/-- A registry with a single one-byte bucket and fanout 2: every Direct
leaf placement succeeds, but the serialized interior node does not fit. -/
def c1Global : Global := { buckets := [([97], 1)], direct_block_count := 2 }

/-- The store after the two one-byte Direct children of the C1
counterexample. -/
def c1StoreA : Store :=
  { blobs := [(([97], [0]), .bytes [7]), (([97], [1]), .bytes [7])], nextDesc := 2,
    faults := [], rand := [], deleted := [], time := 0 }

/-- The store after the third one-byte Direct child (inside the
`StoredBlock` tail) of the C1 counterexample. -/
def c1StoreB : Store :=
  { blobs := [(([97], [0]), .bytes [7]), (([97], [1]), .bytes [7]),
      (([97], [2]), .bytes [7])], nextDesc := 3,
    faults := [], rand := [], deleted := [], time := 0 }

/-- Concrete evaluation of the failing create of the C1 counterexample:
the two one-byte Direct children succeed, the tail wraps the remaining
byte, and placing the serialized interior block (27 bytes) fails. -/
theorem c1_create_eval :
    createIndirect 6 c1Global [7, 7, 7] 0 c4Store =
      (.error (.e "No bucket found for data of size 27"), c1StoreB) := by
  have hA : createLoop 5 c1Global 2 [7, 7, 7] 0 0 [] c4Store =
      (.ok ([.Direct ⟨[97], [0]⟩ 0 1, .Direct ⟨[97], [1]⟩ 1 2], 2), c1StoreA) := rfl
  have hB : createLoop 3 c1Global 2 [7] 2 2 [] c1StoreA =
      (.ok ([.Direct ⟨[97], [2]⟩ 2 3], 3), c1StoreB) := rfl
  have hC : storedCreate c1Global (.block (.Indirect [.Direct ⟨[97], [2]⟩ 2 3])) c1StoreB =
      (.error (.e "No bucket found for data of size 27"), c1StoreB) := rfl
  have hCI : createIndirect 4 c1Global [7] 2 c1StoreA =
      (.ok (.Indirect [.Direct ⟨[97], [2]⟩ 2 3]), c1StoreB) := by
    rw [createIndirect_succ]
    rw [show c1Global.direct_block_count = 2 from rfl]
    rw [hB]
    rfl
  have hSB : storedBlockCreate 5 c1Global [7] 2 c1StoreA =
      (.error (.e "No bucket found for data of size 27"), c1StoreB) := by
    rw [storedBlockCreate_succ]
    simp only [hCI]
    rw [hC, bindE_error]
  rw [createIndirect_succ]
  rw [show c1Global.direct_block_count = 2 from rfl]
  simp only [hA]
  rw [if_pos (by norm_num : (2 : Nat) < 0 + [7, 7, 7].length)]
  show (match storedBlockCreate 5 c1Global [7] 2 c1StoreA with
    | (.error err, st2) => (Except.error err, st2)
    | (.ok b, st2) =>
      (.ok (.Indirect ([BlockType.Direct ⟨[97], [0]⟩ 0 1, .Direct ⟨[97], [1]⟩ 1 2] ++ [b])),
        st2)) = (.error (.e "No bucket found for data of size 27"), c1StoreB)
  rw [hSB]

/-- **C1** (counterexample to the spec's unconditional success): the
registry `c1Global` has a bucket of effective `max_size ≥ 1`, yet
`IndirectBlock::create` of the three bytes `[7, 7, 7]` at offset 0 fails:
after two one-byte Direct children exhaust the fanout, the remaining byte
is wrapped in a `StoredBlock` whose serialized interior block (27 bytes)
fits in no bucket — the error is the placement failure, not fuel
exhaustion. -/
theorem claim_c1_counterexample :
    (∃ p, p ∈ c1Global.buckets ∧ 1 ≤ p.2) ∧
    (createIndirect 6 c1Global [7, 7, 7] 0 c4Store).1 =
      .error (.e "No bucket found for data of size 27") :=
  ⟨⟨([97], 1), by decide, le_refl 1⟩, by rw [c1_create_eval]⟩

/-- **C3**: equal-length overwrite — for a block produced by a successful
`IndirectBlock::create(D, 0)` on a fault-free backend with distinct
bucket names, and any `D'` of the same length, `put(D', 0..len(D'))`
succeeds and a subsequent full get streams back exactly `D'`. -/
theorem claim_c3_overwrite (f : Nat) (g : Global) (D D' : List Nat) (st st1 : Store)
    (b : BlockType) (hnd : BucketsNodup g) (hf : st.faults = [])
    (hcr : createIndirect f g D 0 st = (.ok b, st1))
    (hlen : D'.length = D.length) :
    ∃ b' st2, putB (f + 1) g b D' (0, D'.length) st1 = (.ok b', st2) ∧
      ∃ cs, getB (f + 1) g b' st2 = (.ok cs, st2) ∧ cs.flatten = D' := by
  obtain ⟨hT, _, _, hfl⟩ :=
    createMutual_ok_TreeOk f false g D 0 st b st1 hnd (by simp) hcr
  have hf1 : st1.faults = [] := hfl hf
  obtain ⟨b', st2, hput, hT', hnd2, hf2, hdel2, hfr2⟩ :=
    putB_TreeOk (f + 1) g st1 b 0 D D' st.nextDesc st1.nextDesc hT hlen hf1
  have hzl : 0 + D.length = D'.length := by omega
  rw [hzl] at hput
  obtain ⟨cs, hcs, hflat⟩ :=
    TreeOk_getB (f + 1) g st2 b' 0 D' st.nextDesc st1.nextDesc hT' hf2
  exact ⟨b', st2, hput, cs, hcs, hflat⟩

theorem claim_c3_witness :
    ∃ b' st2, putB 3 wGlobal c13Block [4, 5, 6] (0, 3) c13StoreAfter =
        (.ok b', st2) ∧
      ∃ cs, getB 3 wGlobal b' st2 = (.ok cs, st2) ∧ cs.flatten = [4, 5, 6] :=
  claim_c3_overwrite 2 wGlobal [1, 2, 3] [4, 5, 6] c4Store c13StoreAfter c13Block
    (by unfold BucketsNodup; decide) rfl create_eval_c13 rfl

end Chunkdrive
